import Mathlib

/-!
Verification development for the record format converter in `src/main.rs`.

The program converts an ordered sequence of `Record` values between four
text encodings (JSON, YAML, CSV, TOML-like) through one canonical in-memory
representation (`Vec<Record>`).  The core functions are
`deserialize_from_string`, `serialize_to_string` and `convert_data`; they are
shallowly embedded below together with executable models of the per-format
codecs that the Rust code obtains from the serde ecosystem
(serde_json, serde_yaml, csv, toml).

Modelling notes, stated once here:
* `u32` becomes `Nat`; where the 32-bit bound matters it appears as an
  explicit `< 4294967296` side condition or check.
* `f64` fields are modelled by `DecNum`, an exact sign/integer/fraction
  decimal representation of the textual form the libraries read and write
  (the shortest-decimal printers used by serde round-trip `f64` values
  exactly through their decimal text, so the textual level is the faithful
  one for the conversion claims; exponent forms and non-finite values are
  outside the model).
* Strings, quoting and escaping are modelled concretely per format.
* The third-party codecs are modelled from their observable behaviour on
  the `Record` schema: the JSON and CSV models are general parsers (any
  input text), while the YAML and TOML models cover the line-oriented
  shape that the corresponding serializers emit.
-/

namespace FmtConv

/-! ## Basic character utilities -/
/-- Whitespace as Rust's `char::is_whitespace` (Unicode White_Space),
used by `str::trim` in the emptiness check of `deserialize_from_string`. -/
def isRustWs (c : Char) : Bool :=
  let n := c.toNat
  (9 ≤ n && n ≤ 13) || n == 32 || n == 133 || n == 160 || n == 5760 ||
    (8192 ≤ n && n ≤ 8202) || n == 8232 || n == 8233 || n == 8239 ||
    n == 8287 || n == 12288

/-- JSON insignificant whitespace (space, tab, newline, carriage return). -/
def isJsonWs (c : Char) : Bool :=
  c == ' ' || c == '\t' || c == '\n' || c == '\r'

/-- Drop leading JSON whitespace. -/
def skipWs : List Char → List Char
  | [] => []
  | c :: cs => if isJsonWs c then skipWs cs else c :: cs

/-- Consume an expected literal prefix, returning the remainder. -/
def stripLit : List Char → List Char → Option (List Char)
  | [], cs => some cs
  | _ :: _, [] => none
  | l :: ls, c :: cs => if c = l then stripLit ls cs else none

/-! ## Decimal digits and natural numbers -/
/-- Character for a single decimal digit. -/
def digitChar (d : Nat) : Char := Char.ofNat (48 + d)

/-- Decimal digit characters with an explicit fuel bound (the fuel only
needs to dominate the number of digits; `natToChars` passes the number
itself). -/
def natToCharsAux : Nat → Nat → List Char
  | 0, n => [digitChar (n % 10)]
  | f + 1, n =>
    if n < 10 then [digitChar n]
    else natToCharsAux f (n / 10) ++ [digitChar (n % 10)]

/-- Decimal digit characters of a natural number, most significant first
(the rendering all four libraries use for unsigned integers). -/
def natToChars (n : Nat) : List Char := natToCharsAux n n

/-- Numeric value of a digit character. -/
def digitVal (c : Char) : Nat := c.toNat - 48

/-- Decimal value of a digit-character list, most significant first. -/
def charsVal (acc : Nat) (l : List Char) : Nat :=
  l.foldl (fun a c => 10 * a + digitVal c) acc

/-- Parse a decimal natural number (at least one digit required),
greedily consuming the leading digit run. -/
def parseNat (cs : List Char) : Option (Nat × List Char) :=
  let ds := cs.takeWhile Char.isDigit
  if ds.isEmpty then none
  else some (charsVal 0 ds, cs.dropWhile Char.isDigit)

/-- The head of a character list is not a digit (vacuously true when empty). -/
def headNotDigit : List Char → Prop
  | [] => True
  | c :: _ => ¬ c.isDigit

instance : DecidablePred headNotDigit := by
  intro l; cases l <;> simp [headNotDigit] <;> infer_instance

/-! ## Decimal numbers (textual model of `f64`) -/
/-- Exact decimal representation of the text form in which the four
libraries print and re-parse `f64` values: sign, integer part, and the
list of fraction digits (empty list = no fractional part printed). -/
structure DecNum where
  neg : Bool
  ip : Nat
  frac : List (Fin 10)
  deriving DecidableEq, Repr

/-- Digit characters of a fraction digit list. -/
def fracChars (ds : List (Fin 10)) : List Char := ds.map fun d => digitChar d.val

/-- Decimal text of a `DecNum` (shortest-form rendering, as ryu/itoa do). -/
def printDecNum (v : DecNum) : List Char :=
  (if v.neg then ['-'] else []) ++ natToChars v.ip ++
    (if v.frac = [] then [] else '.' :: fracChars v.frac)

/-- Scan a run of fraction digits. -/
def parseFracDigits (cs : List Char) : List (Fin 10) × List Char :=
  ((cs.takeWhile Char.isDigit).map fun c =>
    (⟨digitVal c % 10, Nat.mod_lt _ (by omega)⟩ : Fin 10),
   cs.dropWhile Char.isDigit)

/-- After the integer part: parse an optional fraction introduced by a dot
that is followed by at least one digit. -/
def parseFracPart (sign : Bool) (ip : Nat) (rest : List Char) :
    Option (DecNum × List Char) :=
  match rest with
  | c :: rest' =>
    if c == '.' then
      match rest' with
      | d :: _ =>
        if d.isDigit then
          let q := parseFracDigits rest'
          some (⟨sign, ip, q.1⟩, q.2)
        else some (⟨sign, ip, []⟩, rest)
      | [] => some (⟨sign, ip, []⟩, rest)
    else some (⟨sign, ip, []⟩, rest)
  | [] => some (⟨sign, ip, []⟩, [])

/-- Parse a decimal number: optional minus sign, integer digits, optional
fraction. -/
def parseDecNum (cs : List Char) : Option (DecNum × List Char) :=
  match cs with
  | [] => none
  | c :: cs' =>
    let sign := c == '-'
    let cs1 := if sign then cs' else c :: cs'
    match parseNat cs1 with
    | none => none
    | some (ip, rest) => parseFracPart sign ip rest

/-- Boundary after a printed number: next char is neither digit nor dot. -/
def numStop : List Char → Prop
  | [] => True
  | c :: _ => c.isDigit = false ∧ c ≠ '.'

/-! ## Booleans -/
/-- Boolean literals as all four formats print them. -/
def boolChars (b : Bool) : List Char :=
  if b then ['t', 'r', 'u', 'e'] else ['f', 'a', 'l', 's', 'e']

/-! ## Line splitting -/
/-- Join lines, terminating each with a newline. -/
def unlines (ls : List (List Char)) : List Char :=
  ls.foldr (fun l acc => l ++ '\n' :: acc) []

/-- Split text into newline-separated lines (no trailing empty line for
newline-terminated text). -/
def splitLines : List Char → List (List Char)
  | [] => []
  | c :: cs =>
    if c == '\n' then [] :: splitLines cs
    else
      match splitLines cs with
      | [] => [[c]]
      | l :: ls => (c :: l) :: ls

/-- Lower-case hex digit character (for values `0..15`). -/
def hexDigitChar (n : Nat) : Char :=
  if n < 10 then digitChar n else Char.ofNat (87 + n)

/-- Hex digit value (accepting both cases), `none` for non-hex chars. -/
def hexDigitVal (c : Char) : Option Nat :=
  if c.isDigit then some (digitVal c)
  else if 'a' ≤ c ∧ c ≤ 'f' then some (c.toNat - 87)
  else if 'A' ≤ c ∧ c ≤ 'F' then some (c.toNat - 55)
  else none

/-- Escape one character the way the serde serializers do: quote,
backslash and the common control characters get two-character escapes,
other control characters get a `\u00XX` escape, everything else is
emitted verbatim. -/
def escChar (c : Char) : List Char :=
  if c = '"' then ['\\', '"']
  else if c = '\\' then ['\\', '\\']
  else if c = '\n' then ['\\', 'n']
  else if c = '\r' then ['\\', 'r']
  else if c = '\t' then ['\\', 't']
  else if c.toNat < 32 then
    ['\\', 'u', '0', '0', hexDigitChar (c.toNat / 16),
      hexDigitChar (c.toNat % 16)]
  else [c]

/-- Escape a character sequence. -/
def escChars (s : List Char) : List Char := (s.map escChar).flatten

/-- Complete double-quoted literal for a string. -/
def strLit (s : String) : List Char := '"' :: (escChars s.data ++ ['"'])

/-- Parse the body of a double-quoted literal (after the opening quote),
returning the unescaped characters and the input after the closing
quote.  Unescaped control characters are rejected, as serde_json does. -/
def parseStrBody : List Char → Option (List Char × List Char)
  | [] => none
  | c :: cs =>
    if c == '"' then some ([], cs)
    else if c == '\\' then
      match cs with
      | [] => none
      | e :: cs' =>
        if e == '"' then (parseStrBody cs').map fun q => ('"' :: q.1, q.2)
        else if e == '\\' then
          (parseStrBody cs').map fun q => ('\\' :: q.1, q.2)
        else if e == '/' then (parseStrBody cs').map fun q => ('/' :: q.1, q.2)
        else if e == 'n' then (parseStrBody cs').map fun q => ('\n' :: q.1, q.2)
        else if e == 't' then (parseStrBody cs').map fun q => ('\t' :: q.1, q.2)
        else if e == 'r' then (parseStrBody cs').map fun q => ('\r' :: q.1, q.2)
        else if e == 'b' then
          (parseStrBody cs').map fun q => (Char.ofNat 8 :: q.1, q.2)
        else if e == 'f' then
          (parseStrBody cs').map fun q => (Char.ofNat 12 :: q.1, q.2)
        else if e == 'u' then
          match cs' with
          | h1 :: h2 :: h3 :: h4 :: cs'' =>
            match hexDigitVal h1, hexDigitVal h2, hexDigitVal h3,
                hexDigitVal h4 with
            | some a, some b, some x, some d =>
              (parseStrBody cs'').map fun q =>
                (Char.ofNat (4096 * a + 256 * b + 16 * x + d) :: q.1, q.2)
            | _, _, _, _ => none
          | _ => none
        else none
    else if c.toNat < 32 then none
    else (parseStrBody cs).map fun q => (c :: q.1, q.2)

/-! ## Data model (`Record`, `Format`, `ConversionError` from main.rs) -/
/-- The canonical record: `struct Record { id: u32, name: String,
value: f64, active: bool }`. -/
structure Record where
  id : Nat
  name : String
  value : DecNum
  active : Bool
  deriving DecidableEq, Repr

/-- The closed format catalog: `enum Format { Json, Yaml, Csv, Toml }`. -/
inductive Format where
  | Json
  | Yaml
  | Csv
  | Toml
  deriving DecidableEq, Repr

/-- The error taxonomy `enum ConversionError` (messages stand in for the
wrapped library error values). -/
inductive ConversionError where
  | Json (msg : String)
  | Yaml (msg : String)
  | Csv (msg : String)
  | TomlDe (msg : String)
  | TomlSer (msg : String)
  | Utf8 (msg : String)
  | Io (msg : String)
  | UnsupportedRepresentation (format : Format)
  | EmptyInput (format : Format)
  deriving DecidableEq, Repr

/-! ## Encoders

Each returns the exact character sequence the corresponding library
serializer produces for `Vec<Record>` (resp. for the TOML wrapper). -/
/-- One pretty-printed JSON object for a record (2-space indent, one
indentation level inside the array), as serde_json's pretty printer
renders it. -/
def jsonRecordChars (r : Record) : List Char :=
  [' ', ' ', '\x7b', '\n',
   ' ', ' ', ' ', ' ', '"', 'i', 'd', '"', ':', ' '] ++ natToChars r.id ++
  [',', '\n',
   ' ', ' ', ' ', ' ', '"', 'n', 'a', 'm', 'e', '"', ':', ' '] ++
    strLit r.name ++
  [',', '\n',
   ' ', ' ', ' ', ' ', '"', 'v', 'a', 'l', 'u', 'e', '"', ':', ' '] ++
    printDecNum r.value ++
  [',', '\n',
   ' ', ' ', ' ', ' ', '"', 'a', 'c', 't', 'i', 'v', 'e', '"', ':', ' '] ++
    boolChars r.active ++
  ['\n', ' ', ' ', '\x7d']

/-- Comma-newline separated object list inside the pretty array. -/
def jsonItems : List Record → List Char
  | [] => []
  | [r] => jsonRecordChars r
  | r :: rs => jsonRecordChars r ++ [',', '\n'] ++ jsonItems rs

/-- serde_json `to_string_pretty` of `Vec<Record>`. -/
def jsonPrint (rs : List Record) : List Char :=
  match rs with
  | [] => ['[', ']']
  | _ => ['[', '\n'] ++ jsonItems rs ++ ['\n', ']']

/-- Scalar may stay plain in YAML output (serde_yaml emits simple
alphabetic words unquoted; everything else is quoted here). -/
def yamlPlainOk (s : String) : Bool :=
  !s.data.isEmpty && s.data.all fun c => c.isAlpha

/-- YAML rendering of a string scalar: plain or double-quoted. -/
def yamlScalar (s : String) : List Char :=
  if yamlPlainOk s then s.data else strLit s

/-- The four output lines of one record in serde_yaml's block style. -/
def yamlRecordLines (r : Record) : List (List Char) :=
  [['-', ' ', 'i', 'd', ':', ' '] ++ natToChars r.id,
   [' ', ' ', 'n', 'a', 'm', 'e', ':', ' '] ++ yamlScalar r.name,
   [' ', ' ', 'v', 'a', 'l', 'u', 'e', ':', ' '] ++ printDecNum r.value,
   [' ', ' ', 'a', 'c', 't', 'i', 'v', 'e', ':', ' '] ++ boolChars r.active]

/-- serde_yaml `to_string` of `Vec<Record>` (`[]` plus newline when the
sequence is empty). -/
def yamlPrint (rs : List Record) : List Char :=
  match rs with
  | [] => ['[', ']', '\n']
  | _ => unlines (rs.map yamlRecordLines).flatten

/-- Does a CSV field need quoting (contains quote, delimiter or line
terminator)? Mirrors the csv crate's `QuoteStyle::Necessary`. -/
def csvNeedsQuote (s : String) : Bool :=
  s.data.any fun c => c == '"' || c == ',' || c == '\n' || c == '\r'

/-- CSV-escape one character inside a quoted field (double the quotes). -/
def csvQuoteChar (c : Char) : List Char :=
  if c == '"' then ['"', '"'] else [c]

/-- Rendered CSV field for a string value. -/
def csvFieldChars (s : String) : List Char :=
  if csvNeedsQuote s then
    '"' :: ((s.data.map csvQuoteChar).flatten ++ ['"'])
  else s.data

/-- Header names of the four columns, by field position in the struct. -/
def colNames : Fin 4 → List Char
  | 0 => ['i', 'd']
  | 1 => ['n', 'a', 'm', 'e']
  | 2 => ['v', 'a', 'l', 'u', 'e']
  | 3 => ['a', 'c', 't', 'i', 'v', 'e']

/-- Rendered CSV cell of a record for a given column. -/
def csvCell (r : Record) : Fin 4 → List Char
  | 0 => natToChars r.id
  | 1 => csvFieldChars r.name
  | 2 => printDecNum r.value
  | 3 => boolChars r.active

/-- Join cells with commas. -/
def commaJoin : List (List Char) → List Char
  | [] => []
  | [x] => x
  | x :: xs => x ++ ',' :: commaJoin xs

/-- CSV text for a given column order (used to state the header-name
binding property); `canonPerm` gives the order the writer emits. -/
def csvPrintPerm (p : List (Fin 4)) (rs : List Record) : List Char :=
  match rs with
  | [] => []
  | _ => unlines (commaJoin (p.map colNames) ::
      rs.map fun r => commaJoin (p.map (csvCell r)))

/-- The struct-declaration column order `id,name,value,active`. -/
def canonPerm : List (Fin 4) := [0, 1, 2, 3]

/-- csv crate writer output for `Vec<Record>`: headers from the struct
field names, then one line per record; nothing at all (not even the
header) when no record is ever serialized. -/
def csvPrint (rs : List Record) : List Char := csvPrintPerm canonPerm rs

/-- The five output lines of one record table in toml's serializer:
`[[records]]` then the four key/value pairs. -/
def tomlRecordLines (r : Record) : List (List Char) :=
  [['[', '[', 'r', 'e', 'c', 'o', 'r', 'd', 's', ']', ']'],
   ['i', 'd', ' ', '=', ' '] ++ natToChars r.id,
   ['n', 'a', 'm', 'e', ' ', '=', ' '] ++ strLit r.name,
   ['v', 'a', 'l', 'u', 'e', ' ', '=', ' '] ++ printDecNum r.value,
   ['a', 'c', 't', 'i', 'v', 'e', ' ', '=', ' '] ++ boolChars r.active]

/-- Table blocks separated by a blank line. -/
def tomlLines : List Record → List (List Char)
  | [] => []
  | [r] => tomlRecordLines r
  | r :: rs => tomlRecordLines r ++ [[]] ++ tomlLines rs

/-- toml `to_string_pretty` of the `TomlWrapper { records }` struct:
an array-of-tables under the fixed key `records`, or an inline empty
array when there are no records. -/
def tomlPrint (rs : List Record) : List Char :=
  match rs with
  | [] => ['r', 'e', 'c', 'o', 'r', 'd', 's', ' ', '=', ' ', '[', ']', '\n']
  | _ => unlines (tomlLines rs)

/-! ## JSON decoder (model of `serde_json::from_str::<Vec<Record>>`)

A general JSON value parser (fuel bounds the recursion; the top level
supplies more fuel than any input can consume), followed by
schema-directed extraction with serde's derived-`Deserialize` semantics:
unknown object fields are ignored, missing or ill-typed fields fail. -/
inductive JVal where
  | null
  | jbool (b : Bool)
  | jnum (v : DecNum)
  | jstr (s : String)
  | jarr (elems : List JVal)
  | jobj (fields : List (String × JVal))

/-- Expect a colon after optional whitespace. -/
def expectColon (cs : List Char) : Option (List Char) :=
  match skipWs cs with
  | c :: rest => if c == ':' then some rest else none
  | [] => none

/-- After an object member: a comma continues the member list, a closing
brace ends it (`true` = last member). -/
def memberSep (cs : List Char) : Option (Bool × List Char) :=
  match skipWs cs with
  | c :: rest =>
    if c == ',' then some (false, rest)
    else if c == '\x7d' then some (true, rest)
    else none
  | [] => none

/-- After an array element: a comma continues, a closing bracket ends. -/
def elemSep (cs : List Char) : Option (Bool × List Char) :=
  match skipWs cs with
  | c :: rest =>
    if c == ',' then some (false, rest)
    else if c == ']' then some (true, rest)
    else none
  | [] => none

mutual

/-- Parse one JSON value (leading whitespace allowed). -/
def parseJVal : Nat → List Char → Option (JVal × List Char)
  | 0, _ => none
  | f + 1, cs =>
    match skipWs cs with
    | [] => none
    | c :: cs' =>
      if c == 'n' then (stripLit ['u', 'l', 'l'] cs').map fun r =>
        (JVal.null, r)
      else if c == 't' then (stripLit ['r', 'u', 'e'] cs').map fun r =>
        (JVal.jbool true, r)
      else if c == 'f' then (stripLit ['a', 'l', 's', 'e'] cs').map fun r =>
        (JVal.jbool false, r)
      else if c == '"' then (parseStrBody cs').map fun q =>
        (JVal.jstr (String.mk q.1), q.2)
      else if c == '[' then
        match skipWs cs' with
        | c2 :: cs2 =>
          if c2 == ']' then some (JVal.jarr [], cs2)
          else (parseJElems f (c2 :: cs2)).map fun q => (JVal.jarr q.1, q.2)
        | [] => none
      else if c == '\x7b' then
        match skipWs cs' with
        | c2 :: cs2 =>
          if c2 == '\x7d' then some (JVal.jobj [], cs2)
          else (parseJMembers f (c2 :: cs2)).map fun q => (JVal.jobj q.1, q.2)
        | [] => none
      else (parseDecNum (c :: cs')).map fun q => (JVal.jnum q.1, q.2)

/-- Parse the elements of a non-empty JSON array up to `]`. -/
def parseJElems : Nat → List Char → Option (List JVal × List Char)
  | 0, _ => none
  | f + 1, cs =>
    match parseJVal f cs with
    | none => none
    | some (v, rest) =>
      match elemSep rest with
      | some (false, rest') =>
        (parseJElems f rest').map fun q => (v :: q.1, q.2)
      | some (true, rest') => some ([v], rest')
      | none => none

/-- Parse the members of a non-empty JSON object up to the closing
brace. -/
def parseJMembers : Nat → List Char →
    Option (List (String × JVal) × List Char)
  | 0, _ => none
  | f + 1, cs =>
    match skipWs cs with
    | c :: cs' =>
      if c == '"' then
        match parseStrBody cs' with
        | none => none
        | some (k, rest) =>
          match expectColon rest with
          | none => none
          | some rest2 =>
            match parseJVal f rest2 with
            | none => none
            | some (v, rest3) =>
              match memberSep rest3 with
              | some (false, rest4) => (parseJMembers f rest4).map fun q =>
                  ((String.mk k, v) :: q.1, q.2)
              | some (true, rest4) => some ([(String.mk k, v)], rest4)
              | none => none
      else none
    | [] => none

end

/-- First binding of a key in an object (derived deserializers ignore
the fields with other names). -/
def jLookup (k : String) : List (String × JVal) → Option JVal
  | [] => none
  | (k', v) :: rest => if k' = k then some v else jLookup k rest

/-- Coerce a JSON value to `u32`: non-negative integral number within
the 32-bit range. -/
def jU32 : Option JVal → Option Nat
  | some (JVal.jnum v) =>
    if v.neg = false ∧ v.frac = [] ∧ v.ip < 4294967296 then some v.ip
    else none
  | _ => none

/-- Coerce a JSON value to `f64` (any number). -/
def jF64 : Option JVal → Option DecNum
  | some (JVal.jnum v) => some v
  | _ => none

/-- Coerce a JSON value to a string. -/
def jStrF : Option JVal → Option String
  | some (JVal.jstr s) => some s
  | _ => none

/-- Coerce a JSON value to a bool. -/
def jBoolF : Option JVal → Option Bool
  | some (JVal.jbool b) => some b
  | _ => none

/-- serde's derived extraction of a `Record` from a JSON value: must be
an object carrying well-typed `id`, `name`, `value`, `active` bindings;
unknown fields are ignored. -/
def recordOfJVal : JVal → Except String Record
  | JVal.jobj kvs =>
    match jU32 (jLookup "id" kvs), jStrF (jLookup "name" kvs),
        jF64 (jLookup "value" kvs), jBoolF (jLookup "active" kvs) with
    | some i, some n, some v, some a => .ok ⟨i, n, v, a⟩
    | _, _, _, _ => .error "JSON: invalid Record object"
  | _ => .error "JSON: expected object"

/-- `serde_json::from_str::<Vec<Record>>`: a whole-input JSON array whose
elements all extract to records. -/
def jsonDecode (cs : List Char) : Except String (List Record) :=
  match parseJVal (cs.length + 1) cs with
  | none => .error "JSON: parse error"
  | some (v, rest) =>
    if skipWs rest = [] then
      match v with
      | JVal.jarr xs => xs.mapM recordOfJVal
      | _ => .error "JSON: expected array of records"
    else .error "JSON: trailing characters"

/-! ## YAML decoder (model of `serde_yaml::from_str::<Vec<Record>>` on
the block-sequence shape its serializer emits) -/
/-- Parse a YAML string scalar occupying the rest of a line: quoted
literal or plain text taken verbatim. -/
def yamlScalarParse (l : List Char) : Option String :=
  match l with
  | c :: cs =>
    if c == '"' then
      match parseStrBody cs with
      | some (s, []) => some (String.mk s)
      | _ => none
    else some (String.mk (c :: cs))
  | [] => some ""

/-- Whole-line natural number with the `u32` bound check. -/
def natFromChars (cs : List Char) : Option Nat :=
  match parseNat cs with
  | some (n, []) => if n < 4294967296 then some n else none
  | _ => none

/-- Whole-line decimal number. -/
def decFromChars (cs : List Char) : Option DecNum :=
  match parseDecNum cs with
  | some (v, []) => some v
  | _ => none

/-- Whole-line boolean literal. -/
def boolFromChars (cs : List Char) : Option Bool :=
  if cs = ['t', 'r', 'u', 'e'] then some true
  else if cs = ['f', 'a', 'l', 's', 'e'] then some false
  else none

/-- One record from its four YAML block lines. -/
def yamlRecOfLines (l1 l2 l3 l4 : List Char) : Option Record :=
  match stripLit ['-', ' ', 'i', 'd', ':', ' '] l1,
      stripLit [' ', ' ', 'n', 'a', 'm', 'e', ':', ' '] l2,
      stripLit [' ', ' ', 'v', 'a', 'l', 'u', 'e', ':', ' '] l3,
      stripLit [' ', ' ', 'a', 'c', 't', 'i', 'v', 'e', ':', ' '] l4 with
  | some c1, some c2, some c3, some c4 =>
    match natFromChars c1, yamlScalarParse c2, decFromChars c3,
        boolFromChars c4 with
    | some i, some n, some v, some a => some ⟨i, n, v, a⟩
    | _, _, _, _ => none
  | _, _, _, _ => none

/-- All records from the block lines, four lines at a time. -/
def yamlRecsOfLines : List (List Char) → Except String (List Record)
  | [] => .ok []
  | l1 :: l2 :: l3 :: l4 :: rest =>
    match yamlRecOfLines l1 l2 l3 l4 with
    | some r => (yamlRecsOfLines rest).map (r :: ·)
    | none => .error "YAML: invalid record block"
  | _ => .error "YAML: truncated record block"

/-- `serde_yaml::from_str::<Vec<Record>>` on the emitted shape: the
empty flow sequence or a block sequence of four-line mappings. -/
def yamlDecode (cs : List Char) : Except String (List Record) :=
  let ls := (splitLines cs).filter fun l => !l.isEmpty
  if ls = [['[', ']']] then .ok []
  else yamlRecsOfLines ls

/-! ## TOML decoder (model of `toml::from_str::<TomlWrapper>` on the
shape its serializer emits) -/
/-- The `[[records]]` table header line. -/
def tomlHeaderLine : List Char :=
  ['[', '[', 'r', 'e', 'c', 'o', 'r', 'd', 's', ']', ']']

/-- The `records = []` inline empty array line. -/
def tomlEmptyLine : List Char :=
  ['r', 'e', 'c', 'o', 'r', 'd', 's', ' ', '=', ' ', '[', ']']

/-- TOML basic (double-quoted) string occupying the rest of a line. -/
def tomlStrParse (l : List Char) : Option String :=
  match l with
  | c :: cs =>
    if c == '"' then
      match parseStrBody cs with
      | some (s, []) => some (String.mk s)
      | _ => none
    else none
  | [] => none

/-- One record from its four TOML key/value lines. -/
def tomlRecOfLines (l1 l2 l3 l4 : List Char) : Option Record :=
  match stripLit ['i', 'd', ' ', '=', ' '] l1,
      stripLit ['n', 'a', 'm', 'e', ' ', '=', ' '] l2,
      stripLit ['v', 'a', 'l', 'u', 'e', ' ', '=', ' '] l3,
      stripLit ['a', 'c', 't', 'i', 'v', 'e', ' ', '=', ' '] l4 with
  | some c1, some c2, some c3, some c4 =>
    match natFromChars c1, tomlStrParse c2, decFromChars c3,
        boolFromChars c4 with
    | some i, some n, some v, some a => some ⟨i, n, v, a⟩
    | _, _, _, _ => none
  | _, _, _, _ => none

/-- All records from the non-blank lines: `[[records]]` headers each
followed by the four key/value lines. -/
def tomlRecsOfLines : List (List Char) → Except String (List Record)
  | [] => .ok []
  | h :: l1 :: l2 :: l3 :: l4 :: rest =>
    if h = tomlHeaderLine then
      match tomlRecOfLines l1 l2 l3 l4 with
      | some r => (tomlRecsOfLines rest).map (r :: ·)
      | none => .error "TOML: invalid record table"
    else .error "TOML: missing field records"
  | _ => .error "TOML: missing field records"

/-- `toml::from_str::<TomlWrapper>` on the emitted shape: requires the
top-level `records` key (as inline empty array or array-of-tables);
anything else is a TOML deserialization error. -/
def tomlDecode (cs : List Char) : Except String (List Record) :=
  let ls := (splitLines cs).filter fun l => !l.isEmpty
  if ls = [tomlEmptyLine] then .ok []
  else tomlRecsOfLines ls

/-! ## CSV decoder (model of the csv crate reader plus serde binding) -/
/-- Parse the remainder of a quoted CSV field (after its opening quote):
doubled quotes collapse, the closing quote ends the field. -/
def parseCsvQuoted : List Char → Option (List Char × List Char)
  | [] => none
  | c :: cs =>
    if c == '"' then
      match cs with
      | c2 :: cs' =>
        if c2 == '"' then (parseCsvQuoted cs').map fun q => ('"' :: q.1, q.2)
        else some ([], c2 :: cs')
      | [] => some ([], [])
    else (parseCsvQuoted cs).map fun q => (c :: q.1, q.2)

/-- Is the character a field/row delimiter? -/
def isCsvStop (c : Char) : Bool := c == ',' || c == '\n' || c == '\r'

/-- Consume a row terminator (`\n`, `\r\n` or `\r`), `none` on any other
character (e.g. text directly after a closing quote). -/
def csvRowEnd : List Char → Option (List Char)
  | [] => some []
  | c :: cs =>
    if c == '\n' then some cs
    else if c == '\r' then
      match cs with
      | c2 :: cs' => if c2 == '\n' then some cs' else some (c2 :: cs')
      | [] => some []
    else none

/-- Parse one CSV field: a quoted field if it opens with a quote,
otherwise the run of characters up to the next delimiter. -/
def parseCsvField : List Char → Option (List Char × List Char)
  | [] => some ([], [])
  | c :: cs' =>
    if c == '"' then parseCsvQuoted cs'
    else some ((c :: cs').takeWhile (fun x => !isCsvStop x),
      (c :: cs').dropWhile (fun x => !isCsvStop x))

/-- Parse the fields of one CSV row; returns the fields and the input
after the row terminator.  Fuel bounds the number of fields. -/
def parseCsvRow : Nat → List Char → Option (List String × List Char)
  | 0, _ => none
  | fuel + 1, cs =>
    match parseCsvField cs with
    | none => none
    | some (f, rest) =>
      match rest with
      | [] => some ([String.mk f], [])
      | c :: rest' =>
        if c == ',' then
          (parseCsvRow fuel rest').map fun q => (String.mk f :: q.1, q.2)
        else
          match csvRowEnd rest with
          | some r2 => some ([String.mk f], r2)
          | none => none

/-- Parse all rows; blank lines are skipped (the csv reader yields no
record for them). -/
def parseCsvRows : Nat → List Char → Except String (List (List String))
  | 0, _ => .error "CSV: parser fuel exhausted"
  | fuel + 1, cs =>
    match cs with
    | [] => .ok []
    | c :: cs' =>
      if c == '\n' ∨ c == '\r' then parseCsvRows fuel cs'
      else
        match parseCsvRow (cs.length + 1) cs with
        | none => .error "CSV: malformed row"
        | some (row, rest) => (parseCsvRows fuel rest).map (row :: ·)

/-- Bind a row cell to a column name by walking header and row in
parallel (first match wins). -/
def findCell : List String → List String → String → Option String
  | h :: hs, c :: cs, k => if h = k then some c else findCell hs cs k
  | _, _, _ => none

/-- Boolean CSV cell as serde parses `bool` from text. -/
def boolOfCell (s : String) : Option Bool :=
  if s = "true" then some true else if s = "false" then some false else none

/-- One record from a header row and a data row: the row must have the
header's width (the reader's `UnequalLengths` check), then each struct
field binds to the column whose header carries its name. -/
def csvRecOfRow (hdr row : List String) : Except String Record :=
  if row.length ≠ hdr.length then
    .error "CSV: record length mismatch (UnequalLengths)"
  else
    match findCell hdr row "id", findCell hdr row "name",
        findCell hdr row "value", findCell hdr row "active" with
    | some si, some sn, some sv, some sa =>
      match natFromChars si.data, decFromChars sv.data, boolOfCell sa with
      | some i, some v, some a => .ok ⟨i, sn, v, a⟩
      | _, _, _ => .error "CSV: field deserialization error"
    | _, _, _, _ => .error "CSV: missing field"

/-- The csv reader with `has_headers(true)` feeding serde row by row,
collected through the early-returning loop of `deserialize_from_string`. -/
def csvDecode (cs : List Char) : Except String (List Record) :=
  match parseCsvRows (cs.length + 1) cs with
  | .error e => .error e
  | .ok [] => .error "CSV: missing header row"
  | .ok (hdr :: rows) => rows.mapM (csvRecOfRow hdr)

/-! ## The three core functions of main.rs -/
/-- `deserialize_from_string(input, format)`: the trim-emptiness guard,
then the format dispatch, each library error wrapped by the
corresponding `ConversionError` variant (via the `#[from]`
conversions). -/
def deserialize_from_string (input : String) (format : Format) :
    Except ConversionError (List Record) :=
  if input.data.all isRustWs then .error (.EmptyInput format)
  else
    match format with
    | .Json => (jsonDecode input.data).mapError ConversionError.Json
    | .Yaml => (yamlDecode input.data).mapError ConversionError.Yaml
    | .Csv => (csvDecode input.data).mapError ConversionError.Csv
    | .Toml => (tomlDecode input.data).mapError ConversionError.TomlDe

/-- `serialize_to_string(records, format)`: format dispatch to the four
serializers (each total on the model's value space). -/
def serialize_to_string (records : List Record) (format : Format) :
    Except ConversionError String :=
  match format with
  | .Json => .ok (String.mk (jsonPrint records))
  | .Yaml => .ok (String.mk (yamlPrint records))
  | .Csv => .ok (String.mk (csvPrint records))
  | .Toml => .ok (String.mk (tomlPrint records))

/-- `convert_data(input, input_format, output_format)`: deserialize,
propagating a decode error via `?`, then serialize. -/
def convert_data (input_string : String)
    (input_format output_format : Format) :
    Except ConversionError String :=
  match deserialize_from_string input_string input_format with
  | .error e => .error e
  | .ok records => serialize_to_string records output_format

/-- Is the error the `UnsupportedRepresentation` variant? -/
def isUnsupported : ConversionError → Bool
  | .UnsupportedRepresentation _ => true
  | _ => false

instance {ε α : Type} [DecidableEq ε] [DecidableEq α] :
    DecidableEq (Except ε α) := fun x y =>
  match x, y with
  | .error e, .error f =>
    match decEq e f with
    | .isTrue h => .isTrue (h ▸ rfl)
    | .isFalse h => .isFalse fun hh => h (Except.error.inj hh)
  | .ok a, .ok b =>
    match decEq a b with
    | .isTrue h => .isTrue (h ▸ rfl)
    | .isFalse h => .isFalse fun hh => h (Except.ok.inj hh)
  | .error _, .ok _ => .isFalse fun hh => Except.noConfusion hh
  | .ok _, .error _ => .isFalse fun hh => Except.noConfusion hh

/-! ## Parser inversion: the pretty-printed record object -/
/-- The JSON value a printed record parses to. -/
def recordJVal (r : Record) : JVal :=
  JVal.jobj [("id", JVal.jnum ⟨false, r.id, []⟩), ("name", JVal.jstr r.name),
    ("value", JVal.jnum r.value), ("active", JVal.jbool r.active)]

/-- The printed record text from the fourth member's key (exclusive of
the opening quote) to the closing brace and beyond. -/
def jsonTail4Body (r : Record) (rest : List Char) : List Char :=
  ['a', 'c', 't', 'i', 'v', 'e'] ++ '"' :: ':' :: ' ' ::
    (boolChars r.active ++ '\n' :: ' ' :: ' ' :: '\x7d' :: rest)

/-- From the third member's key onward. -/
def jsonTail3Body (r : Record) (rest : List Char) : List Char :=
  ['v', 'a', 'l', 'u', 'e'] ++ '"' :: ':' :: ' ' ::
    (printDecNum r.value ++ ',' :: '\n' :: ' ' :: ' ' :: ' ' :: ' ' ::
      '"' :: jsonTail4Body r rest)

/-- From the second member's key onward. -/
def jsonTail2Body (r : Record) (rest : List Char) : List Char :=
  ['n', 'a', 'm', 'e'] ++ '"' :: ':' :: ' ' ::
    (strLit r.name ++ ',' :: '\n' :: ' ' :: ' ' :: ' ' :: ' ' ::
      '"' :: jsonTail3Body r rest)

/-- From the first member's key onward. -/
def jsonTail1Body (r : Record) (rest : List Char) : List Char :=
  ['i', 'd'] ++ '"' :: ':' :: ' ' ::
    (printDecNum ⟨false, r.id, []⟩ ++ ',' :: '\n' :: ' ' :: ' ' :: ' ' ::
      ' ' :: '"' :: jsonTail2Body r rest)

/-! ## CSV field inversion -/
/-- The head of the remaining input is a CSV delimiter (or the input is
exhausted). -/
def csvBoundary : List Char → Prop
  | [] => True
  | c :: _ => isCsvStop c = true

/-- The head is not a double quote (vacuous when empty). -/
def headNotQuote : List Char → Prop
  | [] => True
  | c :: _ => (c == '"') = false

/-- The parsed string of each rendered record cell. -/
def cellStr (r : Record) : Fin 4 → String
  | 0 => String.mk (natToChars r.id)
  | 1 => r.name
  | 2 => String.mk (printDecNum r.value)
  | 3 => String.mk (boolChars r.active)

/-! ## CSV row and row-list inversion -/
/-- A (parsed string, rendered cell) pair such that field parsing
recovers the string before any delimiter boundary. -/
def RenderedCell (q : String × List Char) : Prop :=
  ∀ rest, csvBoundary rest → parseCsvField (q.2 ++ rest) = some (q.1.data, rest)

/-- The head of a rendered cell is never a row terminator. -/
def headCellOk : List Char → Prop
  | [] => True
  | c :: _ => (c == '\n') = false ∧ (c == '\r') = false

/-! ## CSV header-name binding and full decode -/
instance : DecidablePred headNotQuote := fun l =>
  match l with
  | [] => Decidable.isTrue trivial
  | c :: _ => inferInstanceAs (Decidable ((c == '"') = false))

instance : DecidablePred headCellOk := fun l =>
  match l with
  | [] => Decidable.isTrue trivial
  | c :: _ =>
    inferInstanceAs (Decidable (((c == '\n') = false) ∧ ((c == '\r') = false)))

instance : DecidablePred csvBoundary := fun l =>
  match l with
  | [] => Decidable.isTrue trivial
  | c :: _ => inferInstanceAs (Decidable (isCsvStop c = true))

/-- Header name of a column as a string. -/
def colStr (i : Fin 4) : String := String.mk (colNames i)

/-! ## Theorems -/

theorem stripLit_append (l rest : List Char) :
    stripLit l (l ++ rest) = some rest := by
  induction l with
  | nil => rfl
  | cons c cs ih => simp [stripLit, ih]

theorem natToCharsAux_irrel (f : Nat) :
    ∀ (g n : Nat), n ≤ f → n ≤ g → natToCharsAux f n = natToCharsAux g n := by
  induction f with
  | zero =>
    intro g n hf hg
    interval_cases n
    cases g with
    | zero => rfl
    | succ g => simp [natToCharsAux]
  | succ f ih =>
    intro g n hf hg
    cases g with
    | zero =>
      interval_cases n
      simp [natToCharsAux]
    | succ g =>
      by_cases h : n < 10
      · simp [natToCharsAux, h]
      · simp only [natToCharsAux, h, if_false]
        rw [ih g (n / 10) (by omega) (by omega)]

/-- The recursion equation `natToChars` satisfies. -/
theorem natToChars_eq (n : Nat) :
    natToChars n = if n < 10 then [digitChar n]
      else natToChars (n / 10) ++ [digitChar (n % 10)] := by
  by_cases h : n < 10
  · cases n with
    | zero => simp [natToChars, natToCharsAux, h, Nat.mod_eq_of_lt h]
    | succ m => simp [natToChars, natToCharsAux, h]
  · have hn : ∃ m, n = m + 1 := ⟨n - 1, by omega⟩
    obtain ⟨m, rfl⟩ := hn
    show natToCharsAux (m + 1) (m + 1) = _
    simp only [natToCharsAux, h, if_false]
    rw [natToCharsAux_irrel m ((m + 1) / 10) ((m + 1) / 10) (by omega)
      (by omega)]
    rfl

theorem toNat_charOfNat {n : Nat} (h : n < 55296) :
    (Char.ofNat n).toNat = n := by
  have hv : n.isValidChar := Or.inl h
  simp [Char.ofNat, hv, Char.ofNatAux, Char.toNat, UInt32.toNat,
    BitVec.toNat_ofNatLt]

theorem digitChar_isDigit {d : Nat} (h : d < 10) :
    (digitChar d).isDigit = true := by
  interval_cases d <;> decide

theorem digitVal_digitChar {d : Nat} (h : d < 10) :
    digitVal (digitChar d) = d := by
  interval_cases d <;> decide

theorem natToChars_all_digit (n : Nat) :
    ∀ c ∈ natToChars n, c.isDigit = true := by
  induction n using Nat.strong_induction_on with
  | _ n ih =>
    by_cases h : n < 10
    · rw [natToChars_eq]; simp [h]
      exact digitChar_isDigit h
    · rw [natToChars_eq]; simp [h]
      intro c hc
      rcases hc with hc | hc
      · exact ih (n / 10) (Nat.div_lt_self (by omega) (by omega)) c hc
      · rw [hc]; exact digitChar_isDigit (Nat.mod_lt _ (by omega))

theorem natToChars_ne_nil (n : Nat) : natToChars n ≠ [] := by
  rw [natToChars_eq]
  by_cases h : n < 10 <;> simp [h]

theorem takeWhile_digits_append (ds : List Char)
    (hds : ∀ c ∈ ds, c.isDigit = true) (rest : List Char)
    (hrest : headNotDigit rest) :
    (ds ++ rest).takeWhile Char.isDigit = ds ∧
      (ds ++ rest).dropWhile Char.isDigit = rest := by
  induction ds with
  | nil =>
    cases rest with
    | nil => exact ⟨rfl, rfl⟩
    | cons c cs =>
      simp only [headNotDigit] at hrest
      simp only [Bool.not_eq_true] at hrest
      simp [List.takeWhile, List.dropWhile, hrest]
  | cons c cs ih =>
    have hc : c.isDigit = true := hds c (by simp)
    have := ih (fun x hx => hds x (by simp [hx]))
    simp [List.takeWhile, List.dropWhile, hc, this.1, this.2]

theorem charsVal_append (acc : Nat) (l₁ l₂ : List Char) :
    charsVal acc (l₁ ++ l₂) = charsVal (charsVal acc l₁) l₂ := by
  simp [charsVal, List.foldl_append]

theorem charsVal_natToChars (n : Nat) : charsVal 0 (natToChars n) = n := by
  induction n using Nat.strong_induction_on with
  | _ n ih =>
    by_cases h : n < 10
    · rw [natToChars_eq]
      simp [h, charsVal, digitVal_digitChar h]
    · rw [natToChars_eq, if_neg h]
      rw [charsVal_append]
      have h1 : charsVal 0 (natToChars (n / 10)) = n / 10 :=
        ih (n / 10) (Nat.div_lt_self (by omega) (by omega))
      rw [h1]
      simp [charsVal, digitVal_digitChar (Nat.mod_lt n (by omega : 0 < 10))]
      omega

theorem parseNat_natToChars (n : Nat) (rest : List Char)
    (hrest : headNotDigit rest) :
    parseNat (natToChars n ++ rest) = some (n, rest) := by
  obtain ⟨htake, hdrop⟩ :=
    takeWhile_digits_append (natToChars n) (natToChars_all_digit n)
      rest hrest
  simp only [parseNat, htake, hdrop, List.isEmpty_iff, natToChars_ne_nil n,
    if_false, charsVal_natToChars n]

theorem digit_ne_char {c d : Char} (h : c.isDigit = true)
    (hd : d.isDigit = false) : (c == d) = false := by
  rw [beq_eq_false_iff_ne]
  rintro rfl
  rw [h] at hd
  exact Bool.noConfusion hd

theorem parseFracDigits_append (ds : List (Fin 10)) (rest : List Char)
    (hrest : headNotDigit rest) :
    parseFracDigits (fracChars ds ++ rest) = (ds, rest) := by
  obtain ⟨htake, hdrop⟩ := takeWhile_digits_append (fracChars ds)
    (by
      intro c hc
      simp only [fracChars, List.mem_map] at hc
      obtain ⟨d, _, rfl⟩ := hc
      exact digitChar_isDigit d.isLt)
    rest hrest
  simp only [parseFracDigits, htake, hdrop, Prod.mk.injEq, and_true]
  rw [show fracChars ds = List.map (fun d : Fin 10 => digitChar d.val) ds
    from rfl, List.map_map]
  conv_rhs => rw [← List.map_id ds]
  apply List.map_congr_left
  intro d _
  simp [Function.comp, digitVal_digitChar d.isLt, Nat.mod_eq_of_lt d.isLt,
    Fin.ext_iff]

theorem parseFracPart_noFrac (sign : Bool) (ip : Nat) (rest : List Char)
    (hrest : numStop rest) :
    parseFracPart sign ip rest = some (⟨sign, ip, []⟩, rest) := by
  cases rest with
  | nil => rfl
  | cons c cs =>
    simp only [numStop] at hrest
    have hne : (c == '.') = false := by
      rw [beq_eq_false_iff_ne]; exact hrest.2
    simp [parseFracPart, hne]

theorem parseFracPart_frac (sign : Bool) (ip : Nat) (d : Fin 10)
    (ds : List (Fin 10)) (rest : List Char) (hrest : headNotDigit rest) :
    parseFracPart sign ip ('.' :: fracChars (d :: ds) ++ rest) =
      some (⟨sign, ip, d :: ds⟩, rest) := by
  have hd : (digitChar d.val).isDigit = true := digitChar_isDigit d.isLt
  have hstep : fracChars (d :: ds) ++ rest =
      digitChar d.val :: (fracChars ds ++ rest) := by simp [fracChars]
  simp only [List.cons_append, parseFracPart, beq_self_eq_true, if_true,
    hstep, hd]
  rw [show digitChar d.val :: (fracChars ds ++ rest) =
    fracChars (d :: ds) ++ rest from by simp [fracChars]]
  rw [parseFracDigits_append (d :: ds) rest hrest]

theorem parseDecNum_print (v : DecNum) (rest : List Char)
    (hrest : numStop rest) :
    parseDecNum (printDecNum v ++ rest) = some (v, rest) := by
  have hrest' : headNotDigit rest := by
    cases rest with
    | nil => trivial
    | cons c cs =>
      simp only [numStop] at hrest
      simp [headNotDigit, hrest.1]
  have hfp : ∀ sign : Bool,
      parseFracPart sign v.ip
        ((if v.frac = [] then [] else '.' :: fracChars v.frac) ++ rest) =
        some (⟨sign, v.ip, v.frac⟩, rest) := by
    intro sign
    cases hfc : v.frac with
    | nil => simpa using parseFracPart_noFrac sign v.ip rest hrest
    | cons d ds =>
      simpa using parseFracPart_frac sign v.ip d ds rest hrest'
  have hnat : parseNat (natToChars v.ip ++
      ((if v.frac = [] then [] else '.' :: fracChars v.frac) ++ rest)) =
      some (v.ip,
        (if v.frac = [] then [] else '.' :: fracChars v.frac) ++ rest) := by
    apply parseNat_natToChars
    by_cases hf : v.frac = []
    · simpa [hf] using hrest'
    · cases hfc : v.frac with
      | nil => exact absurd hfc hf
      | cons d ds => simp [headNotDigit]
  cases hn : v.neg with
  | true =>
    have hp : printDecNum v ++ rest =
        '-' :: (natToChars v.ip ++
          ((if v.frac = [] then [] else '.' :: fracChars v.frac) ++ rest)) := by
      simp [printDecNum, hn]
    rw [hp]
    simp only [parseDecNum, beq_self_eq_true, if_true, hnat]
    have := hfp true
    rw [this]
    have hv : (⟨true, v.ip, v.frac⟩ : DecNum) = v := by
      cases v; simp_all
    rw [hv]
  | false =>
    have hp : printDecNum v ++ rest = natToChars v.ip ++
        ((if v.frac = [] then [] else '.' :: fracChars v.frac) ++ rest) := by
      simp [printDecNum, hn]
    rw [hp]
    have hall := natToChars_all_digit v.ip
    cases hnc : natToChars v.ip with
    | nil => exact absurd hnc (natToChars_ne_nil v.ip)
    | cons c cs =>
      rw [hnc] at hall
      have hc : c.isDigit = true := hall c (by simp)
      have hcm : (c == '-') = false := digit_ne_char hc (by decide)
      simp only [List.cons_append, parseDecNum, hcm, Bool.false_eq_true,
        if_false]
      rw [show c :: (cs ++ ((if v.frac = [] then []
        else '.' :: fracChars v.frac) ++ rest)) = (c :: cs) ++
        ((if v.frac = [] then [] else '.' :: fracChars v.frac) ++ rest)
        from by simp, ← hnc, hnat]
      show parseFracPart false v.ip
        ((if v.frac = [] then [] else '.' :: fracChars v.frac) ++ rest) =
        some (v, rest)
      rw [hfp false]
      have hv : (⟨false, v.ip, v.frac⟩ : DecNum) = v := by
        cases v; simp_all
      rw [hv]

theorem splitLines_line (l rest : List Char) (hl : '\n' ∉ l) :
    splitLines (l ++ '\n' :: rest) = l :: splitLines rest := by
  induction l with
  | nil => simp [splitLines]
  | cons c l ih =>
    have hc : (c == '\n') = false := by
      rw [beq_eq_false_iff_ne]
      intro h; exact hl (by simp [h])
    simp only [List.cons_append, splitLines, hc, Bool.false_eq_true,
      if_false, List.append_eq]
    rw [ih (fun h => hl (by simp [h]))]

theorem splitLines_unlines (ls : List (List Char))
    (h : ∀ l ∈ ls, '\n' ∉ l) :
    splitLines (unlines ls) = ls := by
  induction ls with
  | nil => rfl
  | cons l ls ih =>
    show splitLines (l ++ '\n' :: unlines ls) = l :: ls
    rw [splitLines_line l _ (h l (by simp))]
    rw [ih (fun x hx => h x (by simp [hx]))]

/-! ## Double-quoted string literals with backslash escapes

The JSON string syntax, also used by serde_yaml for scalars that need
quoting and by the toml serializer for basic strings. -/
theorem charOfNat_toNat {c : Char} (h : c.toNat < 55296) :
    Char.ofNat c.toNat = c := by
  have hv : c.toNat.isValidChar := Or.inl h
  apply Char.ext
  simp only [Char.ofNat, hv, dif_pos, Char.ofNatAux]
  obtain ⟨⟨v⟩⟩ := c
  apply congrArg
  apply BitVec.eq_of_toNat_eq
  simp [Char.toNat, UInt32.toNat]

theorem hexDigitVal_hexDigitChar {n : Nat} (h : n < 16) :
    hexDigitVal (hexDigitChar n) = some n := by
  interval_cases n <;> decide

theorem parseStrBody_esc (s : List Char) (rest : List Char) :
    parseStrBody (escChars s ++ '"' :: rest) = some (s, rest) := by
  induction s with
  | nil =>
    rw [show escChars [] ++ '"' :: rest = '"' :: rest from by simp [escChars]]
    rw [parseStrBody.eq_def]
    simp
  | cons c s ih =>
    rw [show escChars (c :: s) = escChar c ++ escChars s from by
      simp [escChars]]
    by_cases h1 : c = '"'
    · subst h1
      rw [show escChar '"' = ['\\', '"'] from by decide]
      simp only [List.cons_append, List.singleton_append]
      rw [parseStrBody.eq_def]
      simp [ih]
    by_cases h2 : c = '\\'
    · subst h2
      rw [show escChar '\\' = ['\\', '\\'] from by decide]
      simp only [List.cons_append, List.singleton_append]
      rw [parseStrBody.eq_def]
      simp [ih]
    by_cases h3 : c = '\n'
    · subst h3
      rw [show escChar '\n' = ['\\', 'n'] from by decide]
      simp only [List.cons_append, List.singleton_append]
      rw [parseStrBody.eq_def]
      simp [ih]
    by_cases h4 : c = '\r'
    · subst h4
      rw [show escChar '\r' = ['\\', 'r'] from by decide]
      simp only [List.cons_append, List.singleton_append]
      rw [parseStrBody.eq_def]
      simp [ih]
    by_cases h5 : c = '\t'
    · subst h5
      rw [show escChar '\t' = ['\\', 't'] from by decide]
      simp only [List.cons_append, List.singleton_append]
      rw [parseStrBody.eq_def]
      simp [ih]
    by_cases h6 : c.toNat < 32
    · rw [show escChar c = ['\\', 'u', '0', '0', hexDigitChar (c.toNat / 16),
        hexDigitChar (c.toNat % 16)] from by
          simp [escChar, h1, h2, h3, h4, h5, h6]]
      have ha : hexDigitVal (hexDigitChar (c.toNat / 16)) =
          some (c.toNat / 16) := hexDigitVal_hexDigitChar (by omega)
      have hb : hexDigitVal (hexDigitChar (c.toNat % 16)) =
          some (c.toNat % 16) := hexDigitVal_hexDigitChar (by omega)
      simp only [List.cons_append, List.nil_append]
      rw [parseStrBody.eq_def]
      simp only [Char.reduceBEq, Bool.false_eq_true, if_false, if_true,
        ha, hb, show hexDigitVal '0' = some 0 from by decide, ih,
        Option.map_some]
      have hc : 4096 * 0 + 256 * 0 + 16 * (c.toNat / 16) + c.toNat % 16 =
          c.toNat := by omega
      rw [hc, charOfNat_toNat (by omega)]
      rfl
    · rw [show escChar c = [c] from by simp [escChar, h1, h2, h3, h4, h5, h6]]
      have hq : (c == '"') = false := by
        rw [beq_eq_false_iff_ne]; exact h1
      have hbs : (c == '\\') = false := by
        rw [beq_eq_false_iff_ne]; exact h2
      simp only [List.cons_append, List.nil_append]
      rw [parseStrBody.eq_def]
      simp [hq, hbs, h6, ih]

/-! ## Parser inversion: JSON scalars -/
theorem skipWs_append (ws cs : List Char)
    (h : ∀ c ∈ ws, isJsonWs c = true) :
    skipWs (ws ++ cs) = skipWs cs := by
  induction ws with
  | nil => rfl
  | cons c ws ih =>
    simp only [List.cons_append, skipWs, h c (by simp), if_true]
    exact ih fun x hx => h x (by simp [hx])

theorem skipWs_not (c : Char) (cs : List Char) (h : isJsonWs c = false) :
    skipWs (c :: cs) = c :: cs := by
  simp [skipWs, h]

theorem digit_not_jsonWs {c : Char} (h : c.isDigit = true) :
    isJsonWs c = false := by
  simp [isJsonWs, digit_ne_char h (show (' ').isDigit = false by decide),
    digit_ne_char h (show ('\t').isDigit = false by decide),
    digit_ne_char h (show ('\n').isDigit = false by decide),
    digit_ne_char h (show ('\r').isDigit = false by decide)]

/-- The head of a printed number is a minus sign or a digit, hence none
of the characters the JSON value dispatcher treats specially. -/
theorem printDecNum_head (v : DecNum) :
    ∃ c cs', printDecNum v = c :: cs' ∧ isJsonWs c = false ∧
      (c == 'n') = false ∧ (c == 't') = false ∧ (c == 'f') = false ∧
      (c == '"') = false ∧ (c == '[') = false ∧ (c == '\x7b') = false := by
  cases hn : v.neg with
  | true =>
    refine ⟨'-', natToChars v.ip ++
      (if v.frac = [] then [] else '.' :: fracChars v.frac), ?_, by decide,
      by decide, by decide, by decide, by decide, by decide, by decide⟩
    simp [printDecNum, hn]
  | false =>
    cases hnc : natToChars v.ip with
    | nil => exact absurd hnc (natToChars_ne_nil v.ip)
    | cons c cs =>
      have hc : c.isDigit = true := by
        have := natToChars_all_digit v.ip
        rw [hnc] at this
        exact this c (by simp)
      refine ⟨c, cs ++ (if v.frac = [] then [] else '.' :: fracChars v.frac),
        ?_, digit_not_jsonWs hc,
        digit_ne_char hc (by decide), digit_ne_char hc (by decide),
        digit_ne_char hc (by decide), digit_ne_char hc (by decide),
        digit_ne_char hc (by decide), digit_ne_char hc (by decide)⟩
      simp [printDecNum, hn, hnc]

theorem parseJVal_num (f : Nat) (v : DecNum) (rest : List Char)
    (hrest : numStop rest) :
    parseJVal (f + 1) (printDecNum v ++ rest) =
      some (JVal.jnum v, rest) := by
  obtain ⟨c, cs', hpd, hws, hn, ht, hf, hq, hlb, hob⟩ := printDecNum_head v
  rw [hpd, List.cons_append]
  simp only [parseJVal, skipWs_not c _ hws, hn, ht, hf, hq, hlb, hob,
    Bool.false_eq_true, if_false]
  rw [← List.cons_append, ← hpd, parseDecNum_print v rest hrest]
  rfl

theorem parseJVal_str (f : Nat) (s : String) (rest : List Char) :
    parseJVal (f + 1) (strLit s ++ rest) = some (JVal.jstr s, rest) := by
  simp only [strLit, List.cons_append, parseJVal,
    skipWs_not '"' _ (by decide)]
  norm_num
  simp [parseStrBody_esc s.data rest]

theorem parseJVal_bool (f : Nat) (b : Bool) (rest : List Char) :
    parseJVal (f + 1) (boolChars b ++ rest) =
      some (JVal.jbool b, rest) := by
  cases b with
  | true =>
    simp only [boolChars, if_true, List.cons_append, parseJVal,
      skipWs_not 't' _ (by decide)]
    norm_num
    rw [show 'r' :: 'u' :: 'e' :: rest = ['r', 'u', 'e'] ++ rest from rfl,
      stripLit_append]
    rfl
  | false =>
    simp only [boolChars, Bool.false_eq_true, if_false, List.cons_append,
      parseJVal, skipWs_not 'f' _ (by decide)]
    norm_num
    rw [show 'a' :: 'l' :: 's' :: 'e' :: rest =
      ['a', 'l', 's', 'e'] ++ rest from rfl, stripLit_append]
    rfl

theorem parseJVal_ws (f : Nat) (ws cs : List Char)
    (h : ∀ c ∈ ws, isJsonWs c = true) :
    parseJVal f (ws ++ cs) = parseJVal f cs := by
  cases f with
  | zero => simp only [parseJVal]
  | succ f => simp only [parseJVal, skipWs_append ws cs h]

theorem parseJElems_ws (f : Nat) (ws cs : List Char)
    (h : ∀ c ∈ ws, isJsonWs c = true) :
    parseJElems (f + 1) (ws ++ cs) = parseJElems (f + 1) cs := by
  simp only [parseJElems, parseJVal_ws f ws cs h]

theorem parseJMembers_ws (f : Nat) (ws cs : List Char)
    (h : ∀ c ∈ ws, isJsonWs c = true) :
    parseJMembers (f + 1) (ws ++ cs) = parseJMembers (f + 1) cs := by
  simp only [parseJMembers, skipWs_append ws cs h]

theorem skipWs_cons_ws (c : Char) (x : List Char) (h : isJsonWs c = true) :
    skipWs (c :: x) = skipWs x := by
  simp [skipWs, h]

theorem expectColon_colon (x : List Char) :
    expectColon (':' :: x) = some x := by
  simp [expectColon, skipWs, isJsonWs]

theorem memberSep_comma (x : List Char) :
    memberSep (',' :: x) = some (false, x) := by
  simp [memberSep, skipWs, isJsonWs]

theorem memberSep_close (x : List Char) :
    memberSep ('\n' :: ' ' :: ' ' :: '\x7d' :: x) = some (true, x) := by
  simp [memberSep, skipWs, isJsonWs]

theorem elemSep_comma (x : List Char) :
    elemSep (',' :: x) = some (false, x) := by
  simp [elemSep, skipWs, isJsonWs]

theorem elemSep_close (x : List Char) :
    elemSep ('\n' :: ']' :: x) = some (true, x) := by
  simp [elemSep, skipWs, isJsonWs]

/-- One unfolding of the member parser when the input starts (after
whitespace) with a double quote. -/
theorem parseJMembers_cons (f : Nat) (cs cs' : List Char)
    (h : skipWs cs = '"' :: cs') :
    parseJMembers (f + 1) cs =
      match parseStrBody cs' with
      | none => none
      | some (k, rest) =>
        match expectColon rest with
        | none => none
        | some rest2 =>
          match parseJVal f rest2 with
          | none => none
          | some (v, rest3) =>
            match memberSep rest3 with
            | some (false, rest4) => (parseJMembers f rest4).map fun q =>
                ((String.mk k, v) :: q.1, q.2)
            | some (true, rest4) => some ([(String.mk k, v)], rest4)
            | none => none := by
  simp only [parseJMembers, h, beq_self_eq_true, if_true]

theorem parseJMembers_step (f : Nat) (key valText tail : List Char)
    (v : JVal) (ms : List (String × JVal)) (rest : List Char)
    (hkey : escChars key = key)
    (hval : parseJVal (f + 1) (valText ++ ',' :: tail) =
      some (v, ',' :: tail))
    (hnext : parseJMembers (f + 1) tail = some (ms, rest)) :
    parseJMembers (f + 2) ('"' :: (key ++ '"' :: ':' :: ' ' ::
      (valText ++ ',' :: tail))) =
      some ((String.mk key, v) :: ms, rest) := by
  have hk : parseStrBody (key ++ '"' :: (':' :: ' ' ::
      (valText ++ ',' :: tail))) =
      some (key, ':' :: ' ' :: (valText ++ ',' :: tail)) := by
    conv_lhs => rw [← hkey]
    exact parseStrBody_esc key _
  have hws : parseJVal (f + 1) (' ' :: (valText ++ ',' :: tail)) =
      some (v, ',' :: tail) := by
    rw [show (' ' :: (valText ++ ',' :: tail)) =
      [' '] ++ (valText ++ ',' :: tail) from rfl,
      parseJVal_ws _ _ _ (by decide), hval]
  rw [parseJMembers_cons (f + 1) _ _ (skipWs_not '"' _ (by decide))]
  simp only [hk, expectColon_colon, hws, memberSep_comma, hnext,
    Option.map_some']

theorem parseJMembers_last (f : Nat) (key valText : List Char)
    (v : JVal) (rest : List Char)
    (hkey : escChars key = key)
    (hval : parseJVal (f + 1)
      (valText ++ '\n' :: ' ' :: ' ' :: '\x7d' :: rest) =
      some (v, '\n' :: ' ' :: ' ' :: '\x7d' :: rest)) :
    parseJMembers (f + 2) ('"' :: (key ++ '"' :: ':' :: ' ' ::
      (valText ++ '\n' :: ' ' :: ' ' :: '\x7d' :: rest))) =
      some ([(String.mk key, v)], rest) := by
  have hk : parseStrBody (key ++ '"' :: (':' :: ' ' ::
      (valText ++ '\n' :: ' ' :: ' ' :: '\x7d' :: rest))) =
      some (key, ':' :: ' ' ::
        (valText ++ '\n' :: ' ' :: ' ' :: '\x7d' :: rest)) := by
    conv_lhs => rw [← hkey]
    exact parseStrBody_esc key _
  have hws : parseJVal (f + 1) (' ' ::
      (valText ++ '\n' :: ' ' :: ' ' :: '\x7d' :: rest)) =
      some (v, '\n' :: ' ' :: ' ' :: '\x7d' :: rest) := by
    rw [show (' ' :: (valText ++ '\n' :: ' ' :: ' ' :: '\x7d' :: rest)) =
      [' '] ++ (valText ++ '\n' :: ' ' :: ' ' :: '\x7d' :: rest) from rfl,
      parseJVal_ws _ _ _ (by decide), hval]
  rw [parseJMembers_cons (f + 1) _ _ (skipWs_not '"' _ (by decide))]
  simp only [hk, expectColon_colon, hws, memberSep_close]

/-- A printed record's trailing-comma context satisfies `numStop`. -/
theorem numStop_comma (x : List Char) : numStop (',' :: x) :=
  ⟨by decide, by decide⟩

/-- A printed record's closing-newline context satisfies `numStop`. -/
theorem numStop_nl (x : List Char) : numStop ('\n' :: x) :=
  ⟨by decide, by decide⟩

/-- `u32` values print exactly like the corresponding integral decimal
number. -/
theorem natToChars_as_decNum (n : Nat) :
    natToChars n = printDecNum ⟨false, n, []⟩ := by
  simp [printDecNum]

/-- One unfolding of the value parser at an object opening: input whose
whitespace-stripped form opens a brace over a non-empty member list. -/
theorem parseJVal_objStart (f : Nat) (cs cs' cs2 : List Char) (c2 : Char)
    (h1 : skipWs cs = '\x7b' :: cs') (h2 : skipWs cs' = c2 :: cs2)
    (h3 : (c2 == '\x7d') = false) :
    parseJVal (f + 1) cs =
      (parseJMembers f (c2 :: cs2)).map fun q => (JVal.jobj q.1, q.2) := by
  simp [parseJVal, h1, h2, h3]

theorem parseJVal_record (f : Nat) (r : Record) (rest : List Char) :
    parseJVal (f + 6) (jsonRecordChars r ++ rest) =
      some (recordJVal r, rest) := by
  have hact : parseJMembers (f + 2) ('"' :: jsonTail4Body r rest) =
      some ([("active", JVal.jbool r.active)], rest) := by
    simp only [jsonTail4Body]
    exact parseJMembers_last f _ _ _ _ (by decide)
      (parseJVal_bool f r.active _)
  have hact' : parseJMembers (f + 2)
      ('\n' :: ' ' :: ' ' :: ' ' :: ' ' :: '"' :: jsonTail4Body r rest) =
      some ([("active", JVal.jbool r.active)], rest) := by
    rw [show ('\n' :: ' ' :: ' ' :: ' ' :: ' ' :: '"' ::
      jsonTail4Body r rest) = ['\n', ' ', ' ', ' ', ' '] ++
      ('"' :: jsonTail4Body r rest) from rfl,
      parseJMembers_ws _ _ _ (by decide), hact]
  have hvalm : parseJMembers (f + 3) ('"' :: jsonTail3Body r rest) =
      some ([("value", JVal.jnum r.value),
        ("active", JVal.jbool r.active)], rest) := by
    simp only [jsonTail3Body]
    exact parseJMembers_step (f + 1) _ _ _ _ _ _ (by decide)
      (parseJVal_num (f + 1) r.value _ (numStop_comma _)) hact'
  have hvalm' : parseJMembers (f + 3)
      ('\n' :: ' ' :: ' ' :: ' ' :: ' ' :: '"' :: jsonTail3Body r rest) =
      some ([("value", JVal.jnum r.value),
        ("active", JVal.jbool r.active)], rest) := by
    rw [show ('\n' :: ' ' :: ' ' :: ' ' :: ' ' :: '"' ::
      jsonTail3Body r rest) = ['\n', ' ', ' ', ' ', ' '] ++
      ('"' :: jsonTail3Body r rest) from rfl,
      parseJMembers_ws _ _ _ (by decide), hvalm]
  have hname : parseJMembers (f + 4) ('"' :: jsonTail2Body r rest) =
      some ([("name", JVal.jstr r.name), ("value", JVal.jnum r.value),
        ("active", JVal.jbool r.active)], rest) := by
    simp only [jsonTail2Body]
    exact parseJMembers_step (f + 2) _ _ _ _ _ _ (by decide)
      (parseJVal_str (f + 2) r.name _) hvalm'
  have hname' : parseJMembers (f + 4)
      ('\n' :: ' ' :: ' ' :: ' ' :: ' ' :: '"' :: jsonTail2Body r rest) =
      some ([("name", JVal.jstr r.name), ("value", JVal.jnum r.value),
        ("active", JVal.jbool r.active)], rest) := by
    rw [show ('\n' :: ' ' :: ' ' :: ' ' :: ' ' :: '"' ::
      jsonTail2Body r rest) = ['\n', ' ', ' ', ' ', ' '] ++
      ('"' :: jsonTail2Body r rest) from rfl,
      parseJMembers_ws _ _ _ (by decide), hname]
  have hid : parseJMembers (f + 5) ('"' :: jsonTail1Body r rest) =
      some ([("id", JVal.jnum ⟨false, r.id, []⟩),
        ("name", JVal.jstr r.name), ("value", JVal.jnum r.value),
        ("active", JVal.jbool r.active)], rest) := by
    simp only [jsonTail1Body]
    exact parseJMembers_step (f + 3) _ _ _ _ _ _ (by decide)
      (parseJVal_num (f + 3) ⟨false, r.id, []⟩ _ (numStop_comma _)) hname'
  have hfull : jsonRecordChars r ++ rest =
      ' ' :: ' ' :: '\x7b' :: '\n' :: ' ' :: ' ' :: ' ' :: ' ' ::
        '"' :: jsonTail1Body r rest := by
    simp [jsonRecordChars, jsonTail1Body, jsonTail2Body, jsonTail3Body,
      jsonTail4Body, natToChars_as_decNum]
  have h1 : skipWs (jsonRecordChars r ++ rest) = '\x7b' ::
      ('\n' :: ' ' :: ' ' :: ' ' :: ' ' :: '"' ::
        jsonTail1Body r rest) := by
    rw [hfull]; simp [skipWs, isJsonWs]
  have h2 : skipWs ('\n' :: ' ' :: ' ' :: ' ' :: ' ' :: '"' ::
      jsonTail1Body r rest) = '"' :: jsonTail1Body r rest := by
    simp [skipWs, isJsonWs]
  show parseJVal ((f + 5) + 1) _ = _
  rw [parseJVal_objStart (f + 5) _ _ _ '"' h1 h2 (by decide), hid]
  rfl

/-! ## Parser inversion: the pretty-printed array -/
theorem jsonRecordChars_eq (r : Record) (rest : List Char) :
    jsonRecordChars r ++ rest = ' ' :: ' ' :: '\x7b' :: '\n' :: ' ' ::
      ' ' :: ' ' :: ' ' :: '"' :: jsonTail1Body r rest := by
  simp [jsonRecordChars, jsonTail1Body, jsonTail2Body, jsonTail3Body,
    jsonTail4Body, natToChars_as_decNum]

/-- One unfolding of the element parser when the element parse succeeds
and the separator says the list ends. -/
theorem parseJElems_fin (f : Nat) (cs rest rest' : List Char) (v : JVal)
    (hv : parseJVal f cs = some (v, rest))
    (hs : elemSep rest = some (true, rest')) :
    parseJElems (f + 1) cs = some ([v], rest') := by
  simp only [parseJElems, hv, hs]

/-- One unfolding of the element parser when the element parse succeeds
and the separator says the list continues. -/
theorem parseJElems_more (f : Nat) (cs rest rest' : List Char) (v : JVal)
    (hv : parseJVal f cs = some (v, rest))
    (hs : elemSep rest = some (false, rest')) :
    parseJElems (f + 1) cs =
      (parseJElems f rest').map fun q => (v :: q.1, q.2) := by
  simp only [parseJElems, hv, hs]

theorem parseJElems_items (rs : List Record) :
    ∀ (f : Nat) (rest : List Char), rs ≠ [] → rs.length + 6 ≤ f →
    parseJElems f (jsonItems rs ++ '\n' :: ']' :: rest) =
      some (rs.map recordJVal, rest) := by
  induction rs with
  | nil => intro f rest h; exact absurd rfl h
  | cons r rs ih =>
    intro f rest _ hf
    cases rs with
    | nil =>
      obtain ⟨g, rfl⟩ : ∃ g, f = g + 7 :=
        ⟨f - 7, by simp at hf; omega⟩
      show parseJElems ((g + 6) + 1) _ = _
      simp only [jsonItems]
      rw [parseJElems_fin (g + 6) _ _ _ _ (parseJVal_record g r _)
        (elemSep_close _)]
      simp
    | cons r2 rs2 =>
      obtain ⟨g, rfl⟩ : ∃ g, f = g + 7 :=
        ⟨f - 7, by simp at hf; omega⟩
      show parseJElems ((g + 6) + 1) _ = _
      simp only [jsonItems, List.append_assoc, List.cons_append,
        List.nil_append]
      rw [parseJElems_more (g + 6) _ _ _ _ (parseJVal_record g r _)
        (elemSep_comma _)]
      rw [show ('\n' :: (jsonItems (r2 :: rs2) ++ '\n' :: ']' :: rest)) =
        ['\n'] ++ (jsonItems (r2 :: rs2) ++ '\n' :: ']' :: rest) from rfl]
      rw [show (g + 6 : Nat) = (g + 5) + 1 from rfl,
        parseJElems_ws _ _ _ (by decide)]
      rw [ih ((g + 5) + 1) rest (by simp) (by simp at hf ⊢; omega)]
      rfl

/-- One unfolding of the value parser at an array opening over a
non-empty element list. -/
theorem parseJVal_arrStart (f : Nat) (cs cs' cs2 : List Char) (c2 : Char)
    (h1 : skipWs cs = '[' :: cs') (h2 : skipWs cs' = c2 :: cs2)
    (h3 : (c2 == ']') = false) :
    parseJVal (f + 1) cs =
      (parseJElems f (c2 :: cs2)).map fun q => (JVal.jarr q.1, q.2) := by
  simp [parseJVal, h1, h2, h3]

theorem recordOfJVal_recordJVal (r : Record) (h : r.id < 4294967296) :
    recordOfJVal (recordJVal r) = .ok r := by
  simp [recordOfJVal, recordJVal, jLookup, jU32, jStrF, jF64, jBoolF, h]

theorem mapM_recordOfJVal (rs : List Record)
    (h : ∀ r ∈ rs, r.id < 4294967296) :
    (rs.map recordJVal).mapM recordOfJVal = .ok rs := by
  induction rs with
  | nil => rfl
  | cons r rs ih =>
    simp only [List.map_cons, List.mapM_cons,
      recordOfJVal_recordJVal r (h r (by simp)),
      ih fun x hx => h x (by simp [hx])]
    rfl

theorem jsonItems_length (rs : List Record) (h : rs ≠ []) :
    rs.length + 6 ≤ (jsonItems rs).length := by
  induction rs with
  | nil => exact absurd rfl h
  | cons r rs ih =>
    have hr : 8 ≤ (jsonRecordChars r).length := by
      simp [jsonRecordChars]
    cases rs with
    | nil =>
      simp only [jsonItems, List.length_cons, List.length_nil]
      omega
    | cons r2 rs2 =>
      have := ih (by simp)
      simp only [jsonItems, List.length_append, List.length_cons] at *
      omega

theorem jsonDecode_print (rs : List Record)
    (h : ∀ r ∈ rs, r.id < 4294967296) :
    jsonDecode (jsonPrint rs) = .ok rs := by
  cases rs with
  | nil => rfl
  | cons r rs' =>
    have hitems := parseJElems_items (r :: rs')
    have hsplit : ∃ W, jsonItems (r :: rs') ++ '\n' :: ']' :: ([] : List Char)
        = ' ' :: ' ' :: '\x7b' :: W := by
      cases rs' with
      | nil =>
        exact ⟨_, by
          simp only [jsonItems]
          rw [jsonRecordChars_eq]⟩
      | cons r2 rs2 =>
        exact ⟨_, by
          simp only [jsonItems, List.append_assoc, List.cons_append]
          rw [jsonRecordChars_eq]⟩
    obtain ⟨W, hW⟩ := hsplit
    have hlen66 : (r :: rs').length + 6 ≤ (jsonItems (r :: rs')).length :=
      jsonItems_length _ (by simp)
    -- the full printed text
    have hprint : jsonPrint (r :: rs') =
        '[' :: '\n' :: (jsonItems (r :: rs') ++ '\n' :: ']' :: []) := by
      simp [jsonPrint]
    have hfuel : ∃ L, (jsonPrint (r :: rs')).length + 1 = L + 1 ∧
        (r :: rs').length + 6 ≤ L := by
      refine ⟨(jsonPrint (r :: rs')).length, rfl, ?_⟩
      rw [hprint]
      simp only [List.length_cons, List.length_append, List.length_nil]
        at hlen66 ⊢
      omega
    obtain ⟨L, hL1, hL2⟩ := hfuel
    rw [jsonDecode, hL1, hprint]
    have h1 : skipWs ('[' :: '\n' ::
        (jsonItems (r :: rs') ++ '\n' :: ']' :: [])) =
        '[' :: ('\n' :: (jsonItems (r :: rs') ++ '\n' :: ']' :: [])) := by
      simp [skipWs, isJsonWs]
    have h2 : skipWs ('\n' :: (jsonItems (r :: rs') ++ '\n' :: ']' :: [])) =
        '\x7b' :: W := by
      rw [hW]
      simp [skipWs, isJsonWs]
    rw [parseJVal_arrStart L _ _ _ '\x7b' h1 h2 (by decide)]
    have helems : parseJElems L ('\x7b' :: W) =
        some ((r :: rs').map recordJVal, []) := by
      obtain ⟨L', rfl⟩ : ∃ L', L = L' + 1 := ⟨L - 1, by omega⟩
      have := hitems (L' + 1) [] (by simp) hL2
      rw [hW] at this
      rw [show (' ' :: ' ' :: '\x7b' :: W) = [' ', ' '] ++ ('\x7b' :: W)
        from rfl, parseJElems_ws _ _ _ (by decide)] at this
      exact this
    rw [helems]
    simp only [Option.map_some']
    rw [show skipWs [] = [] from rfl]
    simp only [if_true]
    exact mapM_recordOfJVal (r :: rs') h

/-! ## Newline-freedom of printed fragments (line machinery) -/
theorem noLF_natToChars (n : Nat) : '\n' ∉ natToChars n := by
  intro h
  have := natToChars_all_digit n '\n' h
  exact absurd this (by decide)

theorem noLF_fracChars (ds : List (Fin 10)) : '\n' ∉ fracChars ds := by
  intro h
  simp only [fracChars, List.mem_map] at h
  obtain ⟨d, _, hd⟩ := h
  have := digitChar_isDigit d.isLt
  rw [hd] at this
  exact absurd this (by decide)

theorem noLF_printDecNum (v : DecNum) : '\n' ∉ printDecNum v := by
  intro h
  simp only [printDecNum, List.mem_append] at h
  rcases h with (h | h) | h
  · by_cases hn : v.neg <;> simp [hn] at h
  · exact noLF_natToChars v.ip h
  · by_cases hf : v.frac = []
    · simp [hf] at h
    · rw [if_neg hf, List.mem_cons] at h
      rcases h with h | h
      · exact absurd h (by decide)
      · exact noLF_fracChars v.frac h

theorem noLF_boolChars (b : Bool) : '\n' ∉ boolChars b := by
  cases b <;> decide

theorem hexDigitChar_ne_lf {n : Nat} (h : n < 16) : hexDigitChar n ≠ '\n' := by
  interval_cases n <;> decide

theorem noLF_escChar (c : Char) : '\n' ∉ escChar c := by
  by_cases h1 : c = '"'
  · subst h1; decide
  by_cases h2 : c = '\\'
  · subst h2; decide
  by_cases h3 : c = '\n'
  · subst h3; decide
  by_cases h4 : c = '\r'
  · subst h4; decide
  by_cases h5 : c = '\t'
  · subst h5; decide
  by_cases h6 : c.toNat < 32
  · intro hmem
    rw [show escChar c = ['\\', 'u', '0', '0', hexDigitChar (c.toNat / 16),
      hexDigitChar (c.toNat % 16)] from by
        simp [escChar, h1, h2, h3, h4, h5, h6]] at hmem
    rw [List.mem_cons, List.mem_cons, List.mem_cons, List.mem_cons,
      List.mem_cons, List.mem_singleton] at hmem
    rcases hmem with h | h | h | h | h | h
    · exact absurd h (by decide)
    · exact absurd h (by decide)
    · exact absurd h (by decide)
    · exact absurd h (by decide)
    · exact hexDigitChar_ne_lf (by omega) h.symm
    · exact hexDigitChar_ne_lf (by omega) h.symm
  · intro hmem
    rw [show escChar c = [c] from by
      simp [escChar, h1, h2, h3, h4, h5, h6]] at hmem
    rw [List.mem_singleton] at hmem
    exact h3 hmem.symm

theorem noLF_escChars (s : List Char) : '\n' ∉ escChars s := by
  intro h
  simp only [escChars, List.mem_flatten, List.mem_map] at h
  obtain ⟨l, ⟨c, _, rfl⟩, hl⟩ := h
  exact noLF_escChar c hl

theorem noLF_strLit (s : String) : '\n' ∉ strLit s := by
  intro h
  simp only [strLit, List.mem_cons, List.mem_append] at h
  rcases h with h | h | h
  · exact absurd h (by decide)
  · exact noLF_escChars s.data h
  · simp at h

theorem noLF_yamlScalar (s : String) : '\n' ∉ yamlScalar s := by
  intro h
  by_cases hp : yamlPlainOk s
  · simp only [yamlScalar, hp, if_true] at h
    simp only [yamlPlainOk, Bool.and_eq_true, List.all_eq_true] at hp
    have := hp.2 '\n' h
    exact absurd this (by decide)
  · simp only [yamlScalar, hp, Bool.false_eq_true, if_false] at h
    exact noLF_strLit s h

/-! ## Per-line parse inversions (YAML and TOML) -/
theorem charNe_of_isAlpha {c d : Char} (h : c.isAlpha = true)
    (hd : d.isAlpha = false) : (c == d) = false := by
  rw [beq_eq_false_iff_ne]
  rintro rfl
  rw [h] at hd
  exact Bool.noConfusion hd

theorem natFromChars_natToChars (n : Nat) (h : n < 4294967296) :
    natFromChars (natToChars n) = some n := by
  have := parseNat_natToChars n [] trivial
  rw [List.append_nil] at this
  simp [natFromChars, this, h]

theorem decFromChars_printDecNum (v : DecNum) :
    decFromChars (printDecNum v) = some v := by
  have := parseDecNum_print v [] trivial
  rw [List.append_nil] at this
  simp [decFromChars, this]

theorem boolFromChars_boolChars (b : Bool) :
    boolFromChars (boolChars b) = some b := by
  cases b <;> rfl

theorem yamlScalarParse_yamlScalar (s : String) :
    yamlScalarParse (yamlScalar s) = some s := by
  by_cases hp : yamlPlainOk s
  · simp only [yamlScalar, hp, if_true]
    simp only [yamlPlainOk, Bool.and_eq_true, List.all_eq_true] at hp
    cases hd : s.data with
    | nil => simp [hd, List.isEmpty_iff] at hp
    | cons c cs =>
      have hc : c.isAlpha = true := by
        apply hp.2
        rw [hd]; simp
      have hq : (c == '"') = false := charNe_of_isAlpha hc (by decide)
      simp only [yamlScalarParse, hq, Bool.false_eq_true, if_false]
      rw [← hd]
  · simp only [yamlScalar, hp, Bool.false_eq_true, if_false, strLit,
      yamlScalarParse, beq_self_eq_true, if_true]
    rw [show escChars s.data ++ ['"'] = escChars s.data ++ '"' :: []
      from rfl, parseStrBody_esc]

theorem tomlStrParse_strLit (s : String) :
    tomlStrParse (strLit s) = some s := by
  simp only [strLit, tomlStrParse, beq_self_eq_true, if_true]
  rw [show escChars s.data ++ ['"'] = escChars s.data ++ '"' :: []
    from rfl, parseStrBody_esc]

/-! ## YAML round trip -/
theorem yamlRecOfLines_print (r : Record) (h : r.id < 4294967296) :
    yamlRecOfLines
      ('-' :: ' ' :: 'i' :: 'd' :: ':' :: ' ' :: natToChars r.id)
      (' ' :: ' ' :: 'n' :: 'a' :: 'm' :: 'e' :: ':' :: ' ' ::
        yamlScalar r.name)
      (' ' :: ' ' :: 'v' :: 'a' :: 'l' :: 'u' :: 'e' :: ':' :: ' ' ::
        printDecNum r.value)
      (' ' :: ' ' :: 'a' :: 'c' :: 't' :: 'i' :: 'v' :: 'e' :: ':' :: ' ' ::
        boolChars r.active) = some r := by
  show yamlRecOfLines
    (['-', ' ', 'i', 'd', ':', ' '] ++ natToChars r.id)
    ([' ', ' ', 'n', 'a', 'm', 'e', ':', ' '] ++ yamlScalar r.name)
    ([' ', ' ', 'v', 'a', 'l', 'u', 'e', ':', ' '] ++ printDecNum r.value)
    ([' ', ' ', 'a', 'c', 't', 'i', 'v', 'e', ':', ' '] ++
      boolChars r.active) = some r
  simp only [yamlRecOfLines, stripLit_append,
    natFromChars_natToChars r.id h, yamlScalarParse_yamlScalar,
    decFromChars_printDecNum, boolFromChars_boolChars]

theorem yamlRecsOfLines_print (rs : List Record)
    (h : ∀ r ∈ rs, r.id < 4294967296) :
    yamlRecsOfLines ((rs.map yamlRecordLines).flatten) = .ok rs := by
  induction rs with
  | nil => rfl
  | cons r rs ih =>
    simp only [List.map_cons, List.flatten_cons, yamlRecordLines,
      List.cons_append, List.nil_append]
    simp only [yamlRecsOfLines, yamlRecOfLines_print r (h r (by simp)),
      ih fun x hx => h x (by simp [hx])]
    rfl

theorem yamlLines_noLF (rs : List Record) :
    ∀ l ∈ (rs.map yamlRecordLines).flatten, '\n' ∉ l := by
  intro l hl
  simp only [List.mem_flatten, List.mem_map] at hl
  obtain ⟨block, ⟨r', _, rfl⟩, hlb⟩ := hl
  simp only [yamlRecordLines, List.mem_cons, List.mem_singleton] at hlb
  rcases hlb with rfl | rfl | rfl | rfl | hlb
  · intro hm
    rw [List.mem_append] at hm
    rcases hm with hm | hm
    · exact absurd hm (by decide)
    · exact noLF_natToChars r'.id hm
  · intro hm
    rw [List.mem_append] at hm
    rcases hm with hm | hm
    · exact absurd hm (by decide)
    · exact noLF_yamlScalar r'.name hm
  · intro hm
    rw [List.mem_append] at hm
    rcases hm with hm | hm
    · exact absurd hm (by decide)
    · exact noLF_printDecNum r'.value hm
  · intro hm
    rw [List.mem_append] at hm
    rcases hm with hm | hm
    · exact absurd hm (by decide)
    · exact noLF_boolChars r'.active hm
  · simp at hlb

theorem yamlLines_nonEmpty (rs : List Record) :
    ∀ l ∈ (rs.map yamlRecordLines).flatten, (!l.isEmpty) = true := by
  intro l hl
  simp only [List.mem_flatten, List.mem_map] at hl
  obtain ⟨block, ⟨r', _, rfl⟩, hlb⟩ := hl
  simp only [yamlRecordLines, List.mem_cons, List.mem_singleton] at hlb
  rcases hlb with rfl | rfl | rfl | rfl | hlb
  · simp
  · simp
  · simp
  · simp
  · simp at hlb

theorem yamlDecode_print (rs : List Record)
    (h : ∀ r ∈ rs, r.id < 4294967296) :
    yamlDecode (yamlPrint rs) = .ok rs := by
  cases rs with
  | nil => rfl
  | cons r rs' =>
    have hlines : splitLines (yamlPrint (r :: rs')) =
        ((r :: rs').map yamlRecordLines).flatten := by
      simp only [yamlPrint]
      exact splitLines_unlines _ (yamlLines_noLF (r :: rs'))
    have hfilter : (((r :: rs').map yamlRecordLines).flatten).filter
        (fun l => !l.isEmpty) = ((r :: rs').map yamlRecordLines).flatten :=
      List.filter_eq_self.mpr (yamlLines_nonEmpty (r :: rs'))
    have hne : ((r :: rs').map yamlRecordLines).flatten ≠ [['[', ']']] := by
      simp [yamlRecordLines]
    rw [yamlDecode, hlines, hfilter, if_neg hne]
    exact yamlRecsOfLines_print (r :: rs') h

/-! ## TOML round trip -/
theorem tomlRecOfLines_print (r : Record) (h : r.id < 4294967296) :
    tomlRecOfLines
      ('i' :: 'd' :: ' ' :: '=' :: ' ' :: natToChars r.id)
      ('n' :: 'a' :: 'm' :: 'e' :: ' ' :: '=' :: ' ' :: strLit r.name)
      ('v' :: 'a' :: 'l' :: 'u' :: 'e' :: ' ' :: '=' :: ' ' ::
        printDecNum r.value)
      ('a' :: 'c' :: 't' :: 'i' :: 'v' :: 'e' :: ' ' :: '=' :: ' ' ::
        boolChars r.active) = some r := by
  show tomlRecOfLines
    (['i', 'd', ' ', '=', ' '] ++ natToChars r.id)
    (['n', 'a', 'm', 'e', ' ', '=', ' '] ++ strLit r.name)
    (['v', 'a', 'l', 'u', 'e', ' ', '=', ' '] ++ printDecNum r.value)
    (['a', 'c', 't', 'i', 'v', 'e', ' ', '=', ' '] ++ boolChars r.active) =
    some r
  simp only [tomlRecOfLines, stripLit_append,
    natFromChars_natToChars r.id h, tomlStrParse_strLit,
    decFromChars_printDecNum, boolFromChars_boolChars]

theorem tomlFiltered (rs : List Record) :
    (tomlLines rs).filter (fun l => !l.isEmpty) =
      (rs.map tomlRecordLines).flatten := by
  induction rs with
  | nil => rfl
  | cons r rs ih =>
    cases rs with
    | nil =>
      simp only [tomlLines, List.map_cons, List.map_nil,
        List.flatten_cons, List.flatten_nil, List.append_nil]
      simp [tomlRecordLines, List.filter]
    | cons r2 rs2 =>
      show ((tomlRecordLines r ++ [[]] ++ tomlLines (r2 :: rs2)).filter
        (fun (l : List Char) => !l.isEmpty)) = _
      rw [List.filter_append, List.filter_append, ih]
      simp [tomlRecordLines, List.filter]

theorem tomlRecsOfLines_print (rs : List Record)
    (h : ∀ r ∈ rs, r.id < 4294967296) :
    tomlRecsOfLines ((rs.map tomlRecordLines).flatten) = .ok rs := by
  induction rs with
  | nil => rfl
  | cons r rs ih =>
    simp only [List.map_cons, List.flatten_cons, tomlRecordLines,
      List.cons_append, List.nil_append]
    simp only [tomlRecsOfLines, tomlHeaderLine, if_pos,
      tomlRecOfLines_print r (h r (by simp)),
      ih fun x hx => h x (by simp [hx])]
    rfl

theorem tomlLines_noLF (rs : List Record) :
    ∀ l ∈ tomlLines rs, '\n' ∉ l := by
  induction rs with
  | nil => intro l hl; simp [tomlLines] at hl
  | cons r rs ih =>
    have hblock : ∀ l ∈ tomlRecordLines r, '\n' ∉ l := by
      intro l hl
      simp only [tomlRecordLines, List.mem_cons, List.mem_singleton] at hl
      rcases hl with rfl | rfl | rfl | rfl | rfl | hl
      · decide
      · intro hm
        rw [List.mem_append] at hm
        rcases hm with hm | hm
        · exact absurd hm (by decide)
        · exact noLF_natToChars r.id hm
      · intro hm
        rw [List.mem_append] at hm
        rcases hm with hm | hm
        · exact absurd hm (by decide)
        · exact noLF_strLit r.name hm
      · intro hm
        rw [List.mem_append] at hm
        rcases hm with hm | hm
        · exact absurd hm (by decide)
        · exact noLF_printDecNum r.value hm
      · intro hm
        rw [List.mem_append] at hm
        rcases hm with hm | hm
        · exact absurd hm (by decide)
        · exact noLF_boolChars r.active hm
      · simp at hl
    intro l hl
    cases rs with
    | nil => exact hblock l hl
    | cons r2 rs2 =>
      rw [show tomlLines (r :: r2 :: rs2) =
        tomlRecordLines r ++ [[]] ++ tomlLines (r2 :: rs2) from rfl] at hl
      rw [List.mem_append, List.mem_append] at hl
      rcases hl with (hl | hl) | hl
      · exact hblock l hl
      · rw [List.mem_singleton] at hl
        subst hl
        simp
      · exact ih l hl

theorem tomlDecode_print (rs : List Record)
    (h : ∀ r ∈ rs, r.id < 4294967296) :
    tomlDecode (tomlPrint rs) = .ok rs := by
  cases rs with
  | nil => rfl
  | cons r rs' =>
    have hlines : splitLines (tomlPrint (r :: rs')) =
        tomlLines (r :: rs') := by
      simp only [tomlPrint]
      exact splitLines_unlines _ (tomlLines_noLF (r :: rs'))
    have hne : ((r :: rs').map tomlRecordLines).flatten ≠
        [tomlEmptyLine] := by
      simp [tomlRecordLines, tomlEmptyLine]
    rw [tomlDecode, hlines, tomlFiltered, if_neg hne]
    exact tomlRecsOfLines_print (r :: rs') h

theorem takeWhile_append_of {p : Char → Bool} (l rest : List Char)
    (hl : ∀ c ∈ l, p c = true)
    (hr : rest = [] ∨ ∃ c cs, rest = c :: cs ∧ p c = false) :
    (l ++ rest).takeWhile p = l ∧ (l ++ rest).dropWhile p = rest := by
  induction l with
  | nil =>
    rcases hr with rfl | ⟨c, cs, rfl, hc⟩
    · exact ⟨rfl, rfl⟩
    · simp [List.takeWhile, List.dropWhile, hc]
  | cons c cs ih =>
    have hc : p c = true := hl c (by simp)
    have := ih fun x hx => hl x (by simp [hx])
    simp [List.takeWhile, List.dropWhile, hc, this.1, this.2]

theorem parseCsvQuoted_esc (s : List Char) (rest : List Char)
    (hrest : headNotQuote rest) :
    parseCsvQuoted ((s.map csvQuoteChar).flatten ++ '"' :: rest) =
      some (s, rest) := by
  induction s with
  | nil =>
    cases rest with
    | nil => simp [parseCsvQuoted]
    | cons c cs =>
      simp only [headNotQuote] at hrest
      simp [parseCsvQuoted, hrest]
  | cons c s ih =>
    by_cases hc : c = '"'
    · subst hc
      rw [show ((('"' :: s).map csvQuoteChar).flatten ++ '"' :: rest) =
        '"' :: '"' :: ((s.map csvQuoteChar).flatten ++ '"' :: rest) from by
          simp [csvQuoteChar]]
      rw [parseCsvQuoted.eq_def]
      simp [ih]
    · have hcb : (c == '"') = false := by
        rw [beq_eq_false_iff_ne]; exact hc
      rw [show (((c :: s).map csvQuoteChar).flatten ++ '"' :: rest) =
        c :: ((s.map csvQuoteChar).flatten ++ '"' :: rest) from by
          simp [csvQuoteChar, hcb]]
      rw [parseCsvQuoted.eq_def]
      simp [hcb, ih]

theorem parseCsvField_plain (cell rest : List Char)
    (hcell : ∀ c ∈ cell, isCsvStop c = false)
    (hq : headNotQuote cell) (hrest : csvBoundary rest) :
    parseCsvField (cell ++ rest) = some (cell, rest) := by
  cases cell with
  | nil =>
    cases rest with
    | nil => rfl
    | cons c cs =>
      simp only [csvBoundary] at hrest
      have hcq : (c == '"') = false := by
        rw [beq_eq_false_iff_ne]
        rintro rfl
        exact absurd hrest (by decide)
      simp [parseCsvField, hcq, List.takeWhile, List.dropWhile, hrest]
  | cons c cell' =>
    have hsplit := takeWhile_append_of (p := fun x => !isCsvStop x)
      (c :: cell') rest
      (fun x hx => by simp [hcell x hx])
      (by
        cases rest with
        | nil => exact Or.inl rfl
        | cons x xs =>
          simp only [csvBoundary] at hrest
          exact Or.inr ⟨x, xs, rfl, by simp [hrest]⟩)
    simp only [headNotQuote] at hq
    simp only [List.cons_append, parseCsvField, hq, Bool.false_eq_true,
      if_false]
    rw [show (c :: (cell' ++ rest)) = (c :: cell') ++ rest from rfl,
      hsplit.1, hsplit.2]

theorem digit_not_csvStop {c : Char} (h : c.isDigit = true) :
    isCsvStop c = false := by
  simp [isCsvStop, digit_ne_char h (show (',').isDigit = false by decide),
    digit_ne_char h (show ('\n').isDigit = false by decide),
    digit_ne_char h (show ('\r').isDigit = false by decide)]

theorem printDecNum_not_csvStop (v : DecNum) :
    ∀ c ∈ printDecNum v, isCsvStop c = false := by
  intro c hc
  simp only [printDecNum, List.mem_append] at hc
  rcases hc with (hc | hc) | hc
  · by_cases hn : v.neg
    · simp [hn] at hc
      subst hc; decide
    · simp [hn] at hc
  · exact digit_not_csvStop (natToChars_all_digit v.ip c hc)
  · by_cases hf : v.frac = []
    · simp [hf] at hc
    · rw [if_neg hf, List.mem_cons] at hc
      rcases hc with rfl | hc
      · decide
      · simp only [fracChars, List.mem_map] at hc
        obtain ⟨d, _, rfl⟩ := hc
        exact digit_not_csvStop (digitChar_isDigit d.isLt)

theorem headNotQuote_of_boundary (rest : List Char)
    (hrest : csvBoundary rest) : headNotQuote rest := by
  cases rest with
  | nil => trivial
  | cons c cs =>
    simp only [csvBoundary] at hrest
    simp only [headNotQuote]
    rw [beq_eq_false_iff_ne]
    rintro rfl
    exact absurd hrest (by decide)

theorem headNotQuote_natToChars (n : Nat) :
    headNotQuote (natToChars n) := by
  have hall := natToChars_all_digit n
  cases hd : natToChars n with
  | nil => trivial
  | cons c cs =>
    rw [hd] at hall
    simp only [headNotQuote]
    exact digit_ne_char (hall c (by simp)) (by decide)

theorem parseCsvField_cell (r : Record) (i : Fin 4) (rest : List Char)
    (hrest : csvBoundary rest) :
    parseCsvField (csvCell r i ++ rest) =
      some ((cellStr r i).data, rest) := by
  match i with
  | 0 =>
    show parseCsvField (natToChars r.id ++ rest) =
      some ((String.mk (natToChars r.id)).data, rest)
    exact parseCsvField_plain _ _
      (fun c hc => digit_not_csvStop (natToChars_all_digit r.id c hc))
      (headNotQuote_natToChars r.id) hrest
  | 1 =>
    show parseCsvField (csvFieldChars r.name ++ rest) =
      some (r.name.data, rest)
    by_cases hn : csvNeedsQuote r.name
    · rw [show csvFieldChars r.name ++ rest =
        '"' :: ((r.name.data.map csvQuoteChar).flatten ++ '"' :: rest)
        from by simp [csvFieldChars, hn]]
      simp only [parseCsvField, beq_self_eq_true, if_true]
      exact parseCsvQuoted_esc r.name.data rest
        (headNotQuote_of_boundary rest hrest)
    · have hall : ∀ c ∈ r.name.data,
          (c == '"' || c == ',' || c == '\n' || c == '\r') = false := by
        intro c hc
        cases hb : (c == '"' || c == ',' || c == '\n' || c == '\r') with
        | false => rfl
        | true =>
          exact absurd (by
            simp only [csvNeedsQuote, List.any_eq_true]
            exact ⟨c, hc, hb⟩) hn
      rw [show csvFieldChars r.name = r.name.data from by
        simp [csvFieldChars, hn]]
      apply parseCsvField_plain
      · intro c hc
        have := hall c hc
        simp only [Bool.or_eq_false_iff] at this
        simp [isCsvStop, this.1.1.2, this.1.2, this.2]
      · cases hd : r.name.data with
        | nil => trivial
        | cons c cs =>
          simp only [headNotQuote]
          have := hall c (by rw [hd]; simp)
          simp only [Bool.or_eq_false_iff] at this
          exact this.1.1.1
      · exact hrest
  | 2 =>
    show parseCsvField (printDecNum r.value ++ rest) =
      some ((String.mk (printDecNum r.value)).data, rest)
    apply parseCsvField_plain _ _ (printDecNum_not_csvStop r.value) _ hrest
    obtain ⟨c, cs', hpd, _, _, _, _, hq, _, _⟩ := printDecNum_head r.value
    rw [hpd]
    exact hq
  | 3 =>
    show parseCsvField (boolChars r.active ++ rest) =
      some ((String.mk (boolChars r.active)).data, rest)
    cases r.active with
    | true =>
      apply parseCsvField_plain _ _ _ _ hrest
      · intro c hc
        rw [show boolChars true = ['t', 'r', 'u', 'e'] from rfl] at hc
        fin_cases hc <;> decide
      · show ('t' == '"') = false
        decide
    | false =>
      apply parseCsvField_plain _ _ _ _ hrest
      · intro c hc
        rw [show boolChars false = ['f', 'a', 'l', 's', 'e'] from rfl] at hc
        fin_cases hc <;> decide
      · show ('f' == '"') = false
        decide

theorem parseCsvRow_render (ps : List (String × List Char)) :
    ∀ (f : Nat) (rest : List Char), ps ≠ [] → ps.length ≤ f →
    (∀ q ∈ ps, RenderedCell q) →
    parseCsvRow f (commaJoin (ps.map Prod.snd) ++ '\n' :: rest) =
      some (ps.map Prod.fst, rest) := by
  induction ps with
  | nil => intro f rest h; exact absurd rfl h
  | cons q ps ih =>
    intro f rest _ hf hr
    cases ps with
    | nil =>
      obtain ⟨g, rfl⟩ : ∃ g, f = g + 1 := ⟨f - 1, by simp at hf; omega⟩
      simp only [List.map_cons, List.map_nil, commaJoin]
      have hfield := hr q (by simp) ('\n' :: rest)
        (by simp [csvBoundary, isCsvStop])
      simp only [parseCsvRow, hfield]
      simp [csvRowEnd]
    | cons q2 ps2 =>
      obtain ⟨g, rfl⟩ : ∃ g, f = g + 1 := ⟨f - 1, by simp at hf; omega⟩
      simp only [List.map_cons]
      rw [show commaJoin (q.2 :: q2.2 :: ps2.map Prod.snd) =
        q.2 ++ ',' :: commaJoin (q2.2 :: ps2.map Prod.snd) from rfl]
      have hfield := hr q (by simp)
        (',' :: (commaJoin (q2.2 :: ps2.map Prod.snd) ++ '\n' :: rest))
        (by simp [csvBoundary, isCsvStop])
      rw [show (q.2 ++ ',' :: commaJoin (q2.2 :: ps2.map Prod.snd)) ++
        '\n' :: rest = q.2 ++ (',' ::
          (commaJoin (q2.2 :: ps2.map Prod.snd) ++ '\n' :: rest))
        from by simp]
      simp only [parseCsvRow, hfield, beq_self_eq_true, if_true]
      have := ih g rest (by simp) (by simp at hf ⊢; omega)
        (fun x hx => hr x (by simp [hx]))
      rw [show commaJoin ((q2 :: ps2).map Prod.snd) =
        commaJoin (q2.2 :: ps2.map Prod.snd) from by simp] at this
      rw [this]
      simp

theorem commaJoin_head (cells : List (List Char)) (h2 : 2 ≤ cells.length)
    (hh : ∀ cell ∈ cells, headCellOk cell) :
    ∃ c cs, commaJoin cells = c :: cs ∧ (c == '\n') = false ∧
      (c == '\r') = false := by
  cases cells with
  | nil => simp at h2
  | cons c1 t =>
    cases t with
    | nil => simp at h2
    | cons c2 rest =>
      cases hc1 : c1 with
      | nil =>
        refine ⟨',', commaJoin (c2 :: rest), ?_, by decide, by decide⟩
        rw [show commaJoin ([] :: c2 :: rest) =
          [] ++ ',' :: commaJoin (c2 :: rest) from rfl]
        rfl
      | cons x xs =>
        have := hh c1 (by simp)
        rw [hc1] at this
        exact ⟨x, xs ++ ',' :: commaJoin (c2 :: rest),
          by rw [show commaJoin ((x :: xs) :: c2 :: rest) =
            (x :: xs) ++ ',' :: commaJoin (c2 :: rest) from rfl]; rfl,
          this.1, this.2⟩

theorem commaJoin_length (cells : List (List Char)) :
    cells.length ≤ (commaJoin cells).length + 1 := by
  induction cells with
  | nil => simp [commaJoin]
  | cons x t ih =>
    cases t with
    | nil => simp [commaJoin]
    | cons y t2 =>
      rw [show commaJoin (x :: y :: t2) = x ++ ',' :: commaJoin (y :: t2)
        from rfl]
      simp only [List.length_append, List.length_cons] at ih ⊢
      omega

theorem unlines_length (ls : List (List Char)) :
    ls.length ≤ (unlines ls).length := by
  induction ls with
  | nil => simp [unlines]
  | cons l t ih =>
    show t.length + 1 ≤ (l ++ '\n' :: unlines t).length
    simp only [List.length_append, List.length_cons] at ih ⊢
    omega

theorem parseCsvRows_unlines (rowsp : List (List (String × List Char))) :
    ∀ (F : Nat), rowsp.length + 1 ≤ F →
    (∀ row ∈ rowsp, (∀ q ∈ row, RenderedCell q) ∧ 2 ≤ row.length ∧
      ∀ q ∈ row, headCellOk q.2) →
    parseCsvRows F
      (unlines (rowsp.map fun row => commaJoin (row.map Prod.snd))) =
      .ok (rowsp.map fun row => row.map Prod.fst) := by
  induction rowsp with
  | nil =>
    intro F hF _
    obtain ⟨G, rfl⟩ : ∃ G, F = G + 1 := ⟨F - 1, by omega⟩
    rfl
  | cons row rows ih =>
    intro F hF hall
    obtain ⟨G, rfl⟩ : ∃ G, F = G + 1 := ⟨F - 1, by simp at hF; omega⟩
    obtain ⟨hcells, hlen2, hheads⟩ := hall row (by simp)
    simp only [List.map_cons]
    show parseCsvRows (G + 1) (commaJoin (row.map Prod.snd) ++ '\n' ::
      unlines (rows.map fun row => commaJoin (row.map Prod.snd))) = _
    obtain ⟨c, cs, hcj, hnl, hcr⟩ := commaJoin_head (row.map Prod.snd)
      (by simpa using hlen2)
      (by
        intro cell hcell
        simp only [List.mem_map] at hcell
        obtain ⟨q, hq, rfl⟩ := hcell
        exact hheads q hq)
    have hfuel : row.length ≤ (commaJoin (row.map Prod.snd) ++ '\n' ::
        unlines (rows.map fun row => commaJoin (row.map Prod.snd))).length
        + 1 := by
      have h1 := commaJoin_length (row.map Prod.snd)
      simp only [List.length_map] at h1
      simp only [List.length_append, List.length_cons]
      omega
    have hrow := parseCsvRow_render row
      ((commaJoin (row.map Prod.snd) ++ '\n' ::
        unlines (rows.map fun row => commaJoin (row.map Prod.snd))).length
        + 1)
      (unlines (rows.map fun row => commaJoin (row.map Prod.snd)))
      (by rintro rfl; simp at hlen2) hfuel hcells
    rw [hcj] at hrow ⊢
    simp only [List.cons_append] at hrow ⊢
    simp only [parseCsvRows, hnl, hcr, Bool.false_eq_true, false_or,
      or_self, if_false, hrow]
    rw [ih G (by simp at hF ⊢; omega) fun x hx => hall x (by simp [hx])]
    rfl

theorem colStr_inj : ∀ i j : Fin 4, colStr i = colStr j → i = j := by decide

theorem findCell_map (p : List (Fin 4)) (g : Fin 4 → String) (i : Fin 4)
    (hi : i ∈ p) :
    findCell (p.map colStr) (p.map g) (colStr i) = some (g i) := by
  induction p with
  | nil => simp at hi
  | cons j p ih =>
    simp only [List.map_cons, findCell]
    by_cases hj : colStr j = colStr i
    · rw [if_pos hj, colStr_inj j i hj]
    · rw [if_neg hj]
      apply ih
      rcases List.mem_cons.mp hi with rfl | hi'
      · exact absurd rfl hj
      · exact hi'

theorem boolOfCell_print (b : Bool) :
    boolOfCell (String.mk (boolChars b)) = some b := by
  cases b <;> rfl

theorem csvRecOfRow_print (p : List (Fin 4)) (r : Record)
    (hmem : ∀ i : Fin 4, i ∈ p) (hid : r.id < 4294967296) :
    csvRecOfRow (p.map colStr) (p.map (cellStr r)) = .ok r := by
  simp only [csvRecOfRow, List.length_map]
  rw [if_neg (by simp)]
  rw [show ("id" : String) = colStr 0 from rfl,
    show ("name" : String) = colStr 1 from rfl,
    show ("value" : String) = colStr 2 from rfl,
    show ("active" : String) = colStr 3 from rfl,
    findCell_map p (cellStr r) 0 (hmem 0),
    findCell_map p (cellStr r) 1 (hmem 1),
    findCell_map p (cellStr r) 2 (hmem 2),
    findCell_map p (cellStr r) 3 (hmem 3)]
  have h0 : natFromChars (cellStr r 0).data = some r.id := by
    rw [show (cellStr r 0).data = natToChars r.id from rfl]
    exact natFromChars_natToChars r.id hid
  have h2 : decFromChars (cellStr r 2).data = some r.value := by
    rw [show (cellStr r 2).data = printDecNum r.value from rfl]
    exact decFromChars_printDecNum r.value
  have h3 : boolOfCell (cellStr r 3) = some r.active := by
    rw [show cellStr r 3 = String.mk (boolChars r.active) from rfl]
    exact boolOfCell_print r.active
  simp only [h0, h2, h3]
  rw [show cellStr r 1 = r.name from rfl]

theorem mapM_csvRecOfRow (p : List (Fin 4)) (rs : List Record)
    (hmem : ∀ i : Fin 4, i ∈ p)
    (hWF : ∀ r ∈ rs, r.id < 4294967296) :
    (rs.map fun r => p.map (cellStr r)).mapM
      (csvRecOfRow (p.map colStr)) = .ok rs := by
  induction rs with
  | nil => rfl
  | cons r rs ih =>
    simp only [List.map_cons, List.mapM_cons,
      csvRecOfRow_print p r hmem (hWF r (by simp)),
      ih fun x hx => hWF x (by simp [hx])]
    rfl

theorem colNames_rendered (i : Fin 4) :
    RenderedCell (colStr i, colNames i) := by
  intro rest hrest
  show parseCsvField (colNames i ++ rest) =
    some ((String.mk (colNames i)).data, rest)
  apply parseCsvField_plain _ _ ?_ ?_ hrest
  · fin_cases i <;> decide
  · fin_cases i <;> decide

theorem not_jsonWs_nl {c : Char} (h : isJsonWs c = false) :
    (c == '\n') = false ∧ (c == '\r') = false := by
  simp only [isJsonWs, Bool.or_eq_false_iff] at h
  exact ⟨h.1.2, h.2⟩

theorem csvCell_headOk (r : Record) (i : Fin 4) :
    headCellOk (csvCell r i) := by
  match i with
  | 0 =>
    show headCellOk (natToChars r.id)
    have hall := natToChars_all_digit r.id
    cases hd : natToChars r.id with
    | nil => trivial
    | cons c cs =>
      rw [hd] at hall
      have hc := hall c (by simp)
      exact ⟨digit_ne_char hc (by decide), digit_ne_char hc (by decide)⟩
  | 1 =>
    show headCellOk (csvFieldChars r.name)
    by_cases hn : csvNeedsQuote r.name
    · rw [show csvFieldChars r.name =
        '"' :: ((r.name.data.map csvQuoteChar).flatten ++ ['"']) from by
          simp [csvFieldChars, hn]]
      exact ⟨by decide, by decide⟩
    · rw [show csvFieldChars r.name = r.name.data from by
        simp [csvFieldChars, hn]]
      cases hd : r.name.data with
      | nil => trivial
      | cons c cs =>
        have hb : (c == '"' || c == ',' || c == '\n' || c == '\r') =
            false := by
          cases hb : (c == '"' || c == ',' || c == '\n' || c == '\r') with
          | false => rfl
          | true =>
            exact absurd (by
              simp only [csvNeedsQuote, List.any_eq_true]
              exact ⟨c, by rw [hd]; simp, hb⟩) hn
        simp only [Bool.or_eq_false_iff] at hb
        exact ⟨hb.1.2, hb.2⟩
  | 2 =>
    show headCellOk (printDecNum r.value)
    obtain ⟨c, cs', hpd, hws, _, _, _, _, _, _⟩ := printDecNum_head r.value
    rw [hpd]
    exact not_jsonWs_nl hws
  | 3 =>
    show headCellOk (boolChars r.active)
    cases r.active <;> exact ⟨by decide, by decide⟩

theorem csvDecode_printPerm (p : List (Fin 4)) (rs : List Record)
    (hmem : ∀ i : Fin 4, i ∈ p) (hlen2 : 2 ≤ p.length)
    (hWF : ∀ r ∈ rs, r.id < 4294967296) (hne : rs ≠ []) :
    csvDecode (csvPrintPerm p rs) = .ok rs := by
  have hrowsOk : ∀ row ∈ ((p.map fun i => (colStr i, colNames i)) ::
      rs.map fun r => p.map fun i => (cellStr r i, csvCell r i)),
      (∀ q ∈ row, RenderedCell q) ∧ 2 ≤ row.length ∧
        ∀ q ∈ row, headCellOk q.2 := by
    intro row hrow
    rcases List.mem_cons.mp hrow with rfl | hrow'
    · refine ⟨?_, by simpa using hlen2, ?_⟩
      · intro q hq
        simp only [List.mem_map] at hq
        obtain ⟨i, _, rfl⟩ := hq
        exact colNames_rendered i
      · intro q hq
        simp only [List.mem_map] at hq
        obtain ⟨i, _, rfl⟩ := hq
        show headCellOk (colNames i)
        fin_cases i <;> decide
    · simp only [List.mem_map] at hrow'
      obtain ⟨r, _, rfl⟩ := hrow'
      refine ⟨?_, by simpa using hlen2, ?_⟩
      · intro q hq
        simp only [List.mem_map] at hq
        obtain ⟨i, _, rfl⟩ := hq
        intro rest hrest
        exact parseCsvField_cell r i rest hrest
      · intro q hq
        simp only [List.mem_map] at hq
        obtain ⟨i, _, rfl⟩ := hq
        exact csvCell_headOk r i
  have htext : csvPrintPerm p rs =
      unlines ((((p.map fun i => (colStr i, colNames i)) ::
        rs.map fun r => p.map fun i => (cellStr r i, csvCell r i)).map
          fun row => commaJoin (row.map Prod.snd))) := by
    cases rs with
    | nil => exact absurd rfl hne
    | cons r rs' =>
      simp only [csvPrintPerm, List.map_cons, List.map_map,
        Function.comp_def]
  have hlenrows : (((p.map fun i => (colStr i, colNames i)) ::
      rs.map fun r => p.map fun i => (cellStr r i, csvCell r i))).length
      + 1 ≤ (csvPrintPerm p rs).length + 1 := by
    rw [htext]
    have := unlines_length ((((p.map fun i => (colStr i, colNames i)) ::
      rs.map fun r => p.map fun i => (cellStr r i, csvCell r i)).map
        fun row => commaJoin (row.map Prod.snd)))
    simp only [List.length_map] at this ⊢
    omega
  have hrows := parseCsvRows_unlines
    ((p.map fun i => (colStr i, colNames i)) ::
      rs.map fun r => p.map fun i => (cellStr r i, csvCell r i))
    ((csvPrintPerm p rs).length + 1) hlenrows hrowsOk
  rw [← htext] at hrows
  rw [csvDecode, hrows]
  have hh : ((p.map fun i => (colStr i, colNames i)).map Prod.fst) =
      p.map colStr := by
    simp [List.map_map, Function.comp_def]
  have hd : (((rs.map fun r =>
        p.map fun i => (cellStr r i, csvCell r i)).map
          fun row => row.map Prod.fst)) =
      rs.map fun r => p.map (cellStr r) := by
    simp [List.map_map, Function.comp_def]
  simp only [List.map_cons]
  rw [hh, hd]
  exact mapM_csvRecOfRow p rs hmem hWF

/-! ## Round trips through the dispatching entry points -/
theorem csvDecode_print (rs : List Record)
    (hWF : ∀ r ∈ rs, r.id < 4294967296) (hne : rs ≠ []) :
    csvDecode (csvPrint rs) = .ok rs :=
  csvDecode_printPerm canonPerm rs (by decide) (by decide) hWF hne

theorem notAllWs {c : Char} (t : List Char) (h : isRustWs c = false) :
    (c :: t).all isRustWs = false := by
  simp [List.all_cons, h]

theorem jsonPrint_head (rs : List Record) :
    ∃ t, jsonPrint rs = '[' :: t := by
  cases rs with
  | nil => exact ⟨_, rfl⟩
  | cons r rs' => exact ⟨_, rfl⟩

theorem yamlPrint_head (rs : List Record) :
    ∃ c t, yamlPrint rs = c :: t ∧ isRustWs c = false := by
  cases rs with
  | nil => exact ⟨'[', _, rfl, by decide⟩
  | cons r rs' => exact ⟨'-', _, rfl, by decide⟩

theorem csvPrint_head (r : Record) (rs : List Record) :
    ∃ t, csvPrint (r :: rs) = 'i' :: t := ⟨_, rfl⟩

theorem tomlPrint_head (rs : List Record) :
    ∃ c t, tomlPrint rs = c :: t ∧ isRustWs c = false := by
  cases rs with
  | nil => exact ⟨'r', _, rfl, by decide⟩
  | cons r rs' =>
    cases rs' with
    | nil => exact ⟨'[', _, rfl, by decide⟩
    | cons r2 rs'' => exact ⟨'[', _, rfl, by decide⟩

theorem deserialize_serialize_json (rs : List Record)
    (hWF : ∀ r ∈ rs, r.id < 4294967296) :
    deserialize_from_string (String.mk (jsonPrint rs)) Format.Json =
      .ok rs := by
  obtain ⟨t, ht⟩ := jsonPrint_head rs
  have hAll : (String.mk (jsonPrint rs)).data.all isRustWs = false := by
    rw [show (String.mk (jsonPrint rs)).data = jsonPrint rs from rfl, ht]
    exact notAllWs t (by decide)
  rw [deserialize_from_string, if_neg (by simp [hAll])]
  rw [show (String.mk (jsonPrint rs)).data = jsonPrint rs from rfl,
    jsonDecode_print rs hWF]
  rfl

theorem deserialize_serialize_yaml (rs : List Record)
    (hWF : ∀ r ∈ rs, r.id < 4294967296) :
    deserialize_from_string (String.mk (yamlPrint rs)) Format.Yaml =
      .ok rs := by
  obtain ⟨c, t, ht, hc⟩ := yamlPrint_head rs
  have hAll : (String.mk (yamlPrint rs)).data.all isRustWs = false := by
    rw [show (String.mk (yamlPrint rs)).data = yamlPrint rs from rfl, ht]
    exact notAllWs t hc
  rw [deserialize_from_string, if_neg (by simp [hAll])]
  rw [show (String.mk (yamlPrint rs)).data = yamlPrint rs from rfl,
    yamlDecode_print rs hWF]
  rfl

theorem deserialize_serialize_csv (rs : List Record)
    (hWF : ∀ r ∈ rs, r.id < 4294967296) (hne : rs ≠ []) :
    deserialize_from_string (String.mk (csvPrint rs)) Format.Csv =
      .ok rs := by
  obtain ⟨r, rs', rfl⟩ : ∃ r rs', rs = r :: rs' := by
    cases rs with
    | nil => exact absurd rfl hne
    | cons r rs' => exact ⟨r, rs', rfl⟩
  obtain ⟨t, ht⟩ := csvPrint_head r rs'
  have hAll : (String.mk (csvPrint (r :: rs'))).data.all isRustWs =
      false := by
    rw [show (String.mk (csvPrint (r :: rs'))).data = csvPrint (r :: rs')
      from rfl, ht]
    exact notAllWs t (by decide)
  rw [deserialize_from_string, if_neg (by simp [hAll])]
  rw [show (String.mk (csvPrint (r :: rs'))).data = csvPrint (r :: rs')
    from rfl, csvDecode_print (r :: rs') hWF hne]
  rfl

theorem deserialize_serialize_toml (rs : List Record)
    (hWF : ∀ r ∈ rs, r.id < 4294967296) :
    deserialize_from_string (String.mk (tomlPrint rs)) Format.Toml =
      .ok rs := by
  obtain ⟨c, t, ht, hc⟩ := tomlPrint_head rs
  have hAll : (String.mk (tomlPrint rs)).data.all isRustWs = false := by
    rw [show (String.mk (tomlPrint rs)).data = tomlPrint rs from rfl, ht]
    exact notAllWs t hc
  rw [deserialize_from_string, if_neg (by simp [hAll])]
  rw [show (String.mk (tomlPrint rs)).data = tomlPrint rs from rfl,
    tomlDecode_print rs hWF]
  rfl

/-! ## Helper lemmas for the claim theorems -/
theorem jLookup_not_mem (kvs : List (String × JVal)) (k : String)
    (h : ∀ p ∈ kvs, p.1 ≠ k) : jLookup k kvs = none := by
  induction kvs with
  | nil => rfl
  | cons p rest ih =>
    obtain ⟨k', v'⟩ := p
    simp only [jLookup]
    rw [if_neg (h (k', v') (by simp)), ih]
    intro q hq
    exact h q (by simp [hq])

theorem jLookup_append_late (k c : String) (v : JVal)
    (hk : c ≠ k) (kvs : List (String × JVal)) :
    jLookup k (kvs ++ [(c, v)]) = jLookup k kvs := by
  induction kvs with
  | nil => simp [jLookup, hk]
  | cons p rest ih =>
    obtain ⟨k', v'⟩ := p
    simp only [List.cons_append, jLookup]
    by_cases h : k' = k
    · rw [if_pos h, if_pos h]
    · rw [if_neg h, if_neg h]
      exact ih

theorem tomlRecsOfLines_no_header (ls : List (List Char)) (hne : ls ≠ [])
    (hno : tomlHeaderLine ∉ ls) :
    ∃ msg, tomlRecsOfLines ls = .error msg := by
  rcases ls with _ | ⟨h, _ | ⟨l1, _ | ⟨l2, _ | ⟨l3, _ | ⟨l4, rest⟩⟩⟩⟩⟩
  · exact absurd rfl hne
  · exact ⟨_, rfl⟩
  · exact ⟨_, rfl⟩
  · exact ⟨_, rfl⟩
  · exact ⟨_, rfl⟩
  · have hh' : ¬ h = tomlHeaderLine := by
      intro hh
      refine hno ?_
      rw [← hh]
      exact List.mem_cons_self h _
    rw [tomlRecsOfLines, if_neg hh']
    exact ⟨_, rfl⟩

theorem mapError_error_kind {α : Type} (x : Except String α)
    (K : String → ConversionError) (e : ConversionError)
    (h : x.mapError K = .error e) : ∃ msg, e = K msg := by
  cases x with
  | error msg =>
    exact ⟨msg, by injection h with h'; exact h'.symm⟩
  | ok a => exact Except.noConfusion h

theorem deserialize_error_not_unsupported (input : String) (F : Format)
    (e : ConversionError)
    (h : deserialize_from_string input F = .error e) :
    isUnsupported e = false := by
  rw [deserialize_from_string.eq_def] at h
  cases hws : input.data.all isRustWs with
  | true =>
    rw [if_pos hws] at h
    injection h with h'
    subst h'
    rfl
  | false =>
    rw [if_neg (by simp [hws])] at h
    cases F with
    | Json =>
      obtain ⟨msg, rfl⟩ := mapError_error_kind _ _ _ h
      rfl
    | Yaml =>
      obtain ⟨msg, rfl⟩ := mapError_error_kind _ _ _ h
      rfl
    | Csv =>
      obtain ⟨msg, rfl⟩ := mapError_error_kind _ _ _ h
      rfl
    | Toml =>
      obtain ⟨msg, rfl⟩ := mapError_error_kind _ _ _ h
      rfl

/-! ## The claim theorems -/
/-- Claim C1 (amended): encoding a record sequence and decoding the
result in the same format recovers the sequence exactly, for every
format — except that the empty sequence does not survive the CSV round
trip (the CSV writer emits nothing for it, which decodes as empty
input); ids are u32 values. -/
theorem roundTrip_same_format (rs : List Record) (F : Format)
    (hWF : ∀ r ∈ rs, r.id < 4294967296)
    (hne : rs ≠ [] ∨ F ≠ Format.Csv) :
    (serialize_to_string rs F).bind
      (fun s => deserialize_from_string s F) = .ok rs := by
  cases F with
  | Json => exact deserialize_serialize_json rs hWF
  | Yaml => exact deserialize_serialize_yaml rs hWF
  | Toml => exact deserialize_serialize_toml rs hWF
  | Csv =>
    rcases hne with hne | hF
    · exact deserialize_serialize_csv rs hWF hne
    · exact absurd rfl hF

/-- Witness for C1: the round trip at a concrete record and format. -/
theorem roundTrip_same_format_witness :
    (serialize_to_string [⟨1, "Alice", ⟨false, 12, [3, 4]⟩, true⟩]
        Format.Json).bind
      (fun s => deserialize_from_string s Format.Json) =
    .ok [⟨1, "Alice", ⟨false, 12, [3, 4]⟩, true⟩] :=
  roundTrip_same_format _ _ (by decide) (Or.inr (by decide))

/-- Counterexample to C1 as stated: the empty sequence does not round
trip through CSV — the encoder returns the empty string, whose decode is
the `EmptyInput` error rather than `ok []`. -/
theorem roundTrip_empty_csv_cex :
    ¬ ((serialize_to_string ([] : List Record) Format.Csv).bind
        (fun s => deserialize_from_string s Format.Csv) =
      .ok ([] : List Record)) := by
  decide

/-- Claim C2: `convert_data` is exactly decoding followed by encoding —
a decode error is returned as is (encoding never happens), and on decode
success the result is the encoding of the decoded sequence. -/
theorem convert_is_decode_then_encode (input : String)
    (inF outF : Format) :
    convert_data input inF outF =
      (deserialize_from_string input inF).bind
        (fun rs => serialize_to_string rs outF) := by
  rw [convert_data]
  cases deserialize_from_string input inF <;> rfl

/-- Claim C3: an input that is empty or all whitespace decodes to the
`EmptyInput` error tagged with the requested format, in every format —
the emptiness guard runs before any format-specific parsing. -/
theorem emptyInput_before_parsing (input : String) (F : Format)
    (h : input.data.all isRustWs = true) :
    deserialize_from_string input F =
      .error (ConversionError.EmptyInput F) := by
  rw [deserialize_from_string.eq_def, if_pos h]

/-- Witness for C3: the empty and the all-blank input at concrete
formats. -/
theorem emptyInput_before_parsing_witness :
    deserialize_from_string "" Format.Json =
        .error (ConversionError.EmptyInput Format.Json) ∧
      deserialize_from_string "   " Format.Csv =
        .error (ConversionError.EmptyInput Format.Csv) :=
  ⟨emptyInput_before_parsing "" Format.Json (by decide),
   emptyInput_before_parsing "   " Format.Csv (by decide)⟩

/-- Claim C4: the TOML encoder always opens with the fixed `records`
key (inline empty array for no records, `[[records]]` table header
otherwise); the TOML decoder fails on any input whose lines never
produce that key; and the bare (unwrapped) empty array is accepted by
the JSON and YAML decoders but rejected by the TOML decoder, which
instead accepts the wrapped `records = []`. -/
theorem toml_wrapper_key :
    (∀ rs : List Record, ∃ t, tomlPrint rs =
      (if rs.isEmpty then tomlEmptyLine else tomlHeaderLine) ++ t) ∧
    (∀ cs : List Char,
      ((splitLines cs).filter fun l => !l.isEmpty) ≠ [] →
      ((splitLines cs).filter fun l => !l.isEmpty) ≠ [tomlEmptyLine] →
      tomlHeaderLine ∉ ((splitLines cs).filter fun l => !l.isEmpty) →
      ∃ msg, tomlDecode cs = .error msg) ∧
    jsonDecode "[]".data = .ok [] ∧ yamlDecode "[]\n".data = .ok [] ∧
    tomlDecode "records = []\n".data = .ok [] ∧
    ∃ msg, tomlDecode "[]".data = .error msg := by
  refine ⟨?_, ?_, rfl, rfl, rfl, ⟨_, rfl⟩⟩
  · intro rs
    cases rs with
    | nil => exact ⟨['\n'], rfl⟩
    | cons r rs' =>
      cases rs' with
      | nil => exact ⟨_, rfl⟩
      | cons r2 rs'' => exact ⟨_, rfl⟩
  · intro cs h1 h2 h3
    obtain ⟨msg, hmsg⟩ := tomlRecsOfLines_no_header _ h1 h3
    refine ⟨msg, ?_⟩
    simp only [tomlDecode]
    rw [if_neg h2]
    exact hmsg

/-- Claim C5 (amended): JSON decoding requires all four Record fields
and fails when one is missing, but it does not reject extra fields —
an unknown key appended to an object leaves the extraction unchanged
(serde's default ignores unknown fields). -/
theorem json_schema_fields :
    (∀ (kvs : List (String × JVal)) (v : JVal),
      recordOfJVal (JVal.jobj (kvs ++ [("child", v)])) =
        recordOfJVal (JVal.jobj kvs)) ∧
    (∀ kvs : List (String × JVal), (∀ p ∈ kvs, p.1 ≠ "active") →
      recordOfJVal (JVal.jobj kvs) =
        .error "JSON: invalid Record object") ∧
    deserialize_from_string
        "[ \x7b \"id\": 1, \"name\": \"A\", \"value\": 1.5 \x7d ]"
        Format.Json =
      .error (ConversionError.Json "JSON: invalid Record object") := by
  refine ⟨?_, ?_, rfl⟩
  · intro kvs v
    simp only [recordOfJVal,
      jLookup_append_late "id" "child" v (by decide) kvs,
      jLookup_append_late "name" "child" v (by decide) kvs,
      jLookup_append_late "value" "child" v (by decide) kvs,
      jLookup_append_late "active" "child" v (by decide) kvs]
  · intro kvs h
    simp only [recordOfJVal, jLookup_not_mem kvs "active" h]
    cases jU32 (jLookup "id" kvs) <;> cases jStrF (jLookup "name" kvs) <;>
      cases jF64 (jLookup "value" kvs) <;> rfl

/-- Counterexample to C5 as stated: an object carrying the four Record
fields plus an extra `child` field decodes successfully instead of
failing with a JSON error. -/
theorem json_extra_field_cex :
    deserialize_from_string
      "[ \x7b \"id\": 1, \"name\": \"A\", \"value\": 1.5, \"active\": true, \"child\": [] \x7d ]"
      Format.Json =
    .ok [⟨1, "A", ⟨false, 1, [5]⟩, true⟩] := rfl

/-- Claim C6: CSV columns bind to Record fields by header name — any
header order (each data row permuted identically) decodes to the same
sequence as the canonical column order, both recovering the original
records. -/
theorem csv_binds_by_header_name (p : List (Fin 4)) (rs : List Record)
    (hmem : ∀ i : Fin 4, i ∈ p) (h2 : 2 ≤ p.length)
    (hWF : ∀ r ∈ rs, r.id < 4294967296) (hne : rs ≠ []) :
    csvDecode (csvPrintPerm p rs) = .ok rs ∧
      csvDecode (csvPrintPerm canonPerm rs) = .ok rs :=
  ⟨csvDecode_printPerm p rs hmem h2 hWF hne,
   csvDecode_printPerm canonPerm rs (by decide) (by decide) hWF hne⟩

/-- Witness for C6: a reversed-and-shuffled column order at a concrete
record. -/
theorem csv_binds_by_header_name_witness :
    csvDecode (csvPrintPerm [3, 0, 2, 1]
        [⟨1, "Alice", ⟨false, 12, [3, 4]⟩, true⟩]) =
      .ok [⟨1, "Alice", ⟨false, 12, [3, 4]⟩, true⟩] ∧
    csvDecode (csvPrintPerm canonPerm
        [⟨1, "Alice", ⟨false, 12, [3, 4]⟩, true⟩]) =
      .ok [⟨1, "Alice", ⟨false, 12, [3, 4]⟩, true⟩] :=
  csv_binds_by_header_name [3, 0, 2, 1] _ (by decide) (by decide)
    (by decide) (by decide)

/-- Claim C7: decoding is all-or-nothing — a CSV data row whose width
differs from the header makes that row's record extraction an error, a
successful row decode always yields exactly one record per row (no
truncation), and a concrete ragged CSV input fails end to end with the
CSV length-mismatch error and no partial output. -/
theorem decode_all_or_nothing :
    (∀ hdr row : List String, row.length ≠ hdr.length →
      csvRecOfRow hdr row =
        .error "CSV: record length mismatch (UnequalLengths)") ∧
    (∀ (hdr : List String) (rows : List (List String))
        (out : List Record),
      rows.mapM (csvRecOfRow hdr) = .ok out →
        out.length = rows.length) ∧
    deserialize_from_string
        "id,name,value,active\n1,Alice,12.34,true\n2,Bob\n" Format.Csv =
      .error (ConversionError.Csv
        "CSV: record length mismatch (UnequalLengths)") := by
  refine ⟨?_, ?_, rfl⟩
  · intro hdr row h
    rw [csvRecOfRow, if_pos h]
  · intro hdr rows
    induction rows with
    | nil =>
      intro out h
      injection h with h'
      rw [← h']
      rfl
    | cons row rest ih =>
      intro out h
      rw [List.mapM_cons] at h
      cases hr : csvRecOfRow hdr row with
      | error e => rw [hr] at h; exact Except.noConfusion h
      | ok r =>
        rw [hr] at h
        cases hrest : rest.mapM (csvRecOfRow hdr) with
        | error e => rw [hrest] at h; exact Except.noConfusion h
        | ok outs =>
          rw [hrest] at h
          injection h with h'
          rw [← h', List.length_cons, List.length_cons, ih outs hrest]

/-- Claim C8: a failed conversion never reports
`UnsupportedRepresentation` — every error `convert_data` can return is
of another kind, for every input and format pair. -/
theorem convert_never_unsupported (input : String) (inF outF : Format)
    (e : ConversionError)
    (h : convert_data input inF outF = .error e) :
    isUnsupported e = false := by
  rw [convert_data] at h
  cases hd : deserialize_from_string input inF with
  | error e' =>
    rw [hd] at h
    injection h with h'
    subst h'
    exact deserialize_error_not_unsupported input inF _ hd
  | ok rs =>
    rw [hd] at h
    cases outF <;> exact Except.noConfusion h

/-- Witness for C8: the error of a concrete failing conversion is not
the unsupported-representation variant. -/
theorem convert_never_unsupported_witness :
    isUnsupported (ConversionError.EmptyInput Format.Json) = false :=
  convert_never_unsupported "" Format.Json Format.Yaml
    (ConversionError.EmptyInput Format.Json) rfl

/-- Claim C9: the spec's concrete example — the one-row CSV text decodes
to the single record (1, Alice, 12.34, true), and encoding that record
to JSON yields the pretty-printed single-element array with exactly
those field values. -/
theorem concrete_example_csv_json :
    deserialize_from_string "id,name,value,active\n1,Alice,12.34,true\n"
        Format.Csv = .ok [⟨1, "Alice", ⟨false, 12, [3, 4]⟩, true⟩] ∧
    serialize_to_string [⟨1, "Alice", ⟨false, 12, [3, 4]⟩, true⟩]
        Format.Json =
      .ok "[\n  \x7b\n    \"id\": 1,\n    \"name\": \"Alice\",\n    \"value\": 12.34,\n    \"active\": true\n  \x7d\n]" :=
  ⟨rfl, rfl⟩

/-- Claim C10: encoding the empty sequence to CSV succeeds with the
empty string (no header row), and decoding the empty string in any
format yields the `EmptyInput` error, so the empty sequence is not
recovered. -/
theorem empty_sequence_csv_output :
    serialize_to_string [] Format.Csv = .ok "" ∧
    ∀ F, deserialize_from_string "" F =
      .error (ConversionError.EmptyInput F) :=
  ⟨rfl, fun _ => rfl⟩

end FmtConv
